import Mathlib

/-!
Font resolution and substitution validation.

A shallow embedding of `skia/ext/SkFontHost_fontconfig_direct.cpp`
(`FontConfigDirect::IsMetricCompatibleReplacement`, `IsFallbackFontAllowed`,
`FontConfigDirect::Match`, `FontConfigDirect::Open`) and theorems about it.

Modelling conventions.

* A `Char` stands for one C `char` and `String` for `std::string`. A
  `const char*` is the list of characters of a string read up to the first
  NUL character or the end of the list, whichever comes first; so
  `strcasecmp` applied to `family` reads `family.c_str()`. Strings that come
  from fontconfig (`FcChar8*`) and string literals are C strings.
* `strcasecmp` lowers ASCII letters only (POSIX locale). The source only tests
  its result against zero.
* The font catalog (fontconfig) and the operating system are parameters:
  `Catalog` gives, for the query pattern built by `Match`, the family name
  after configuration substitution and the sorted font set, and tells which
  paths are readable and what `open` returns.
* A font pattern of the font set is recorded by what the `FcPatternGet*`
  calls of `Match` observe on it; the values of `FC_FAMILY` form a list, as
  in fontconfig, and `FcPatternGetString(.., FC_FAMILY, id, ..)` reads its
  element `id`.
* A pointer argument that may be null is an `Option`: `none` is the null
  pointer, `some v` a pointer to a cell holding `v`.
* Every `return` statement of `Match` has its own label in `MatchReturn`;
  the C++ `bool` result is `true` exactly for `MatchReturn.ok`.
* The mutex is not modelled: calls are taken one at a time.
-/

namespace FontConfig

/-! ## C library -/

/-- The function `tolower` of the C library in the POSIX locale, on character codes. -/
def tolower (c : Nat) : Nat :=
  if 65 ≤ c ∧ c ≤ 90 then c + 32 else c

/-- The character code a `const char*` points at: the head of the list, or the
terminating NUL when the list is exhausted. -/
def peek : List Char → Nat
  | [] => 0
  | c :: _ => c.toNat

/-- The loop of `strcasecmp`: lower both current characters, stop at the
terminator of the first string or at the first difference, and return the
difference of the two lowered characters. -/
def strcasecmpAux : List Char → List Char → Int
  | [], s2 => (tolower 0 : Int) - (tolower (peek s2) : Int)
  | c :: s1, s2 =>
    let c1 := tolower c.toNat
    let c2 := tolower (peek s2)
    if c1 = 0 then (c1 : Int) - (c2 : Int)
    else if c1 = c2 then strcasecmpAux s1 s2.tail
    else (c1 : Int) - (c2 : Int)

/-- The function `strcasecmp` of the C library on two strings. -/
def strcasecmp (s1 s2 : String) : Int :=
  strcasecmpAux s1.data s2.data

/-! ## The metric-equivalence table -/

/-- One row of `kFontEquivClasses`: `struct FontEquivClass { char id; const char name[20]; }`. -/
structure FontEquivClass where
  id : Int
  name : String
deriving DecidableEq, Repr

/-- The static table `kFontEquivClasses` of `IsMetricCompatibleReplacement`. -/
def kFontEquivClasses : List FontEquivClass :=
  [ ⟨0, "Arial"⟩,
    ⟨0, "Liberation Sans"⟩,
    ⟨0, "Albany"⟩,
    ⟨0, "Albany Amt"⟩,
    ⟨1, "Times New Roman"⟩,
    ⟨1, "Liberation Serif"⟩,
    ⟨1, "Thorndale"⟩,
    ⟨1, "Thorndale AMT"⟩,
    ⟨2, "Courier New"⟩,
    ⟨2, "Liberation Mono"⟩,
    ⟨2, "Cumberland"⟩,
    ⟨2, "Cumberland AMT"⟩,
    ⟨3, "Helvetica"⟩,
    ⟨3, "Nimbus Sans L"⟩,
    ⟨4, "Times"⟩,
    ⟨4, "Nimbus Roman No9 L"⟩,
    ⟨5, "Courier"⟩,
    ⟨5, "Nimbus Mono L"⟩ ]

/-- The lookup loop of `IsMetricCompatibleReplacement` over the rows still to
visit: the class starts at `-1` and takes the id of the first row whose name
compares equal to `font`, where the loop breaks. -/
def findClass : List FontEquivClass → String → Int
  | [], _ => -1
  | row :: rows, font =>
    if strcasecmp row.name font = 0 then row.id else findClass rows font

/-- The function `FontConfigDirect::IsMetricCompatibleReplacement`. -/
def IsMetricCompatibleReplacement (font_a font_b : String) : Bool :=
  let class_a := findClass kFontEquivClasses font_a
  if class_a = -1 then false
  else
    let class_b := findClass kFontEquivClasses font_b
    decide (class_a = class_b)

/-- The function `IsFallbackFontAllowed`. -/
def IsFallbackFontAllowed (family : String) : Bool :=
  decide (strcasecmp family "sans" = 0) ||
  decide (strcasecmp family "serif" = 0) ||
  decide (strcasecmp family "monospace" = 0) ||
  decide (strcasecmp family "NonAntiAliasedSans" = 0)

/-! ## Data model of `Match` -/

/-- Constants that `Match` takes from headers outside the source file:
`kMaxFontFamilyLength` of the class header and the weight and slant
constants of `fontconfig.h`. -/
structure Constants where
  kMaxFontFamilyLength : Nat
  FC_WEIGHT_NORMAL : Int
  FC_WEIGHT_MEDIUM : Int
  FC_WEIGHT_BOLD : Int
  FC_SLANT_ROMAN : Int
  FC_SLANT_ITALIC : Int

/-- The values the constants have in `fontconfig.h` and in the class header. -/
def stdConstants : Constants :=
  ⟨2048, 80, 100, 200, 0, 100⟩

/-- A font pattern of the sorted font set, as `Match` observes it:
`scalable` is the result of `FcPatternGetBool(FC_SCALABLE, 0)`, `file` of
`FcPatternGetString(FC_FILE, 0)`, `family` the value list read by
`FcPatternGetString(FC_FAMILY, id)`, `weight` and `slant` the results of
`FcPatternGetInteger`, and `matrix`, `embolden` tell whether
`FcPatternGet(FC_MATRIX, 0)` and `FcPatternGet(FC_EMBOLDEN, 0)` succeed.
`none` stands for any result other than `FcResultMatch`. -/
structure FcPattern where
  scalable : Option Bool
  file : Option String
  family : List String
  weight : Option Int
  slant : Option Int
  matrix : Bool
  embolden : Bool
deriving DecidableEq, Repr

/-- The query pattern `Match` builds before the substitution calls. -/
structure Query where
  file : Option String
  family : Option String
  weight : Int
  slant : Int
  scalable : Bool
deriving DecidableEq, Repr

/-- The collaborators of `Match` and `Open`: `post_config_family` is what
`FcPatternGetString(pattern, FC_FAMILY, 0, ..)` stores after
`FcConfigSubstitute` and `FcDefaultSubstitute`, `FcFontSort` is the sorted
font set (`none` for a null set), `access` tells whether
`access(path, R_OK)` returns 0, and `sys_open` is `open(path, O_RDONLY)`. -/
structure Catalog where
  post_config_family : Query → String
  FcFontSort : Query → Option (List FcPattern)
  access : String → Bool
  sys_open : String → Int

/-- The members of `FontConfigDirect`: the counter and the two `std::map`s,
each map as the partial function it denotes. -/
structure FontConfigDirect where
  next_file_id_ : Nat
  filename_to_fileid_ : String → Option Nat
  fileid_to_filename_ : Nat → Option String

/-- The constructor `FontConfigDirect::FontConfigDirect`. -/
def FontConfigDirect.construct : FontConfigDirect :=
  ⟨0, fun _ => none, fun _ => none⟩

/-- The `return` statements of `Match`, in source order. -/
inductive MatchReturn where
  | family_too_long
  | unknown_fileid
  | no_font_set
  | no_match
  | unacceptable_substitute
  | no_file
  | no_family
  | ok
deriving DecidableEq, Repr

/-- The C++ `bool` that a `return` statement of `Match` yields. -/
def MatchReturn.toBool : MatchReturn → Bool
  | MatchReturn.ok => true
  | _ => false

/-- What a call of `Match` leaves behind: the `return` taken, the engine, and
the cells behind the four pointer arguments. -/
structure MatchResult where
  ret : MatchReturn
  self : FontConfigDirect
  result_family : Option String
  result_fileid : Option Nat
  is_bold : Option Bool
  is_italic : Option Bool

/-! ## `Match` -/

/-- The C string `std::string::c_str` exposes: the characters before the first NUL. -/
def c_str (s : String) : String :=
  ⟨s.data.takeWhile (fun c => c.toNat ≠ 0)⟩

/-- Lines 125-147 of `Match`: the query pattern, or `none` when the pinned
file id is not in `fileid_to_filename_`. -/
def Match_pattern (K : Constants) (self : FontConfigDirect) (fileid_valid : Bool)
    (fileid : Nat) (family : String) (is_bold is_italic : Option Bool) : Option Query :=
  let weight := if is_bold = some true then K.FC_WEIGHT_BOLD else K.FC_WEIGHT_NORMAL
  let slant := if is_italic = some true then K.FC_SLANT_ITALIC else K.FC_SLANT_ROMAN
  let fam := if family = "" then none else some (c_str family)
  if fileid_valid then
    match self.fileid_to_filename_ fileid with
    | none => none
    | some filename => some ⟨some (c_str filename), fam, weight, slant, true⟩
  else
    some ⟨none, fam, weight, slant, true⟩

/-- Lines 192-213 of `Match`: the scan of the font set for the first pattern
that is scalable, has a file and whose file is readable. -/
def Match_filter (access : String → Bool) : List FcPattern → Option FcPattern
  | [] => none
  | current :: fonts =>
    match current.scalable with
    | some true =>
      match current.file with
      | some c_filename =>
        if access c_filename then some current else Match_filter access fonts
      | none => Match_filter access fonts
    | _ => Match_filter access fonts

/-- Lines 121-219 of `Match`: either the `return` taken before a font is
chosen, or the family name after configuration substitution together with
the chosen font pattern `match`. -/
def Match_select (K : Constants) (cat : Catalog) (self : FontConfigDirect)
    (fileid_valid : Bool) (fileid : Nat) (family : String)
    (is_bold is_italic : Option Bool) : Except MatchReturn (String × FcPattern) :=
  if family.length > K.kMaxFontFamilyLength then
    Except.error MatchReturn.family_too_long
  else
    match Match_pattern K self fileid_valid fileid family is_bold is_italic with
    | none => Except.error MatchReturn.unknown_fileid
    | some pattern =>
      let post_config_family := cat.post_config_family pattern
      match cat.FcFontSort pattern with
      | none => Except.error MatchReturn.no_font_set
      | some font_set =>
        match Match_filter cat.access font_set with
        | none => Except.error MatchReturn.no_match
        | some m => Except.ok (post_config_family, m)

/-- Lines 228-241 of `Match`: the value assigned to `acceptable_substitute`
for one family name `post_match_family` of the chosen pattern. -/
def Match_acceptable (family post_config_family post_match_family : String) : Bool :=
  if family = "" then true
  else
    (decide (strcasecmp post_config_family post_match_family = 0) ||
      decide (strcasecmp family post_match_family = 0)) ||
    IsMetricCompatibleReplacement family post_match_family

/-- Lines 223-244 of `Match`: the loop `for (int id = 0; id < 255; ++id)`,
with `n` iterations left (`n = 255 - id`) and the current value of the
variable `acceptable_substitute`; the result is the value of the variable
after the loop. -/
def Match_substitute_loop (family post_config_family : String) (m : FcPattern) :
    Nat → Nat → Bool → Bool
  | 0, _, acceptable_substitute => acceptable_substitute
  | n + 1, id, acceptable_substitute =>
    match m.family[id]? with
    | none => acceptable_substitute
    | some post_match_family =>
      let acceptable := Match_acceptable family post_config_family post_match_family
      if acceptable then acceptable
      else Match_substitute_loop family post_config_family m n (id + 1) acceptable

/-- Lines 222-244 of `Match`: the variable `acceptable_substitute` starts as
`false` and the loop runs from `id = 0`. -/
def Match_acceptable_substitute (family post_config_family : String) (m : FcPattern) : Bool :=
  Match_substitute_loop family post_config_family m 255 0 false

/-- Lines 261-274 of `Match`: the file id given out for `filename` and the
engine afterwards. The counter is an `unsigned`, so it wraps at `2 ^ 32`. -/
def Match_fileid (self : FontConfigDirect) (fileid_valid : Bool) (fileid : Nat)
    (filename : String) : Nat × FontConfigDirect :=
  if fileid_valid then (fileid, self)
  else
    match self.filename_to_fileid_ filename with
    | none =>
      (self.next_file_id_,
        ⟨(self.next_file_id_ + 1) % 2 ^ 32,
          fun f => if f = filename then some self.next_file_id_
            else self.filename_to_fileid_ f,
          fun i => if i = self.next_file_id_ then some filename
            else self.fileid_to_filename_ i⟩)
    | some i => (i, self)

/-- The function `FontConfigDirect::Match`. -/
def FontConfigDirect.Match (K : Constants) (cat : Catalog) (self : FontConfigDirect)
    (result_family : Option String) (result_fileid : Option Nat)
    (fileid_valid : Bool) (fileid : Nat) (family : String)
    (is_bold is_italic : Option Bool) : MatchResult :=
  match Match_select K cat self fileid_valid fileid family is_bold is_italic with
  | Except.error r => ⟨r, self, result_family, result_fileid, is_bold, is_italic⟩
  | Except.ok (post_config_family, m) =>
    if (!IsFallbackFontAllowed family) &&
        (!Match_acceptable_substitute family post_config_family m) then
      ⟨MatchReturn.unacceptable_substitute, self, result_family, result_fileid,
        is_bold, is_italic⟩
    else
      match m.file with
      | none =>
        ⟨MatchReturn.no_file, self, result_family, result_fileid, is_bold, is_italic⟩
      | some filename =>
        let assigned := Match_fileid self fileid_valid fileid filename
        let out_fileid := assigned.1
        let self1 := assigned.2
        let result_fileid1 := result_fileid.map (fun _ => out_fileid)
        match m.family[0]? with
        | none =>
          ⟨MatchReturn.no_family, self1, result_family, result_fileid1, is_bold, is_italic⟩
        | some c_family =>
          let resulting_bold := m.weight.getD K.FC_WEIGHT_NORMAL
          let resulting_italic := m.slant.getD K.FC_SLANT_ROMAN
          let have_matrix := m.matrix
          let have_embolden := m.embolden
          ⟨MatchReturn.ok, self1,
            result_family.map (fun _ => c_family),
            result_fileid1,
            is_bold.map (fun _ =>
              decide (resulting_bold > K.FC_WEIGHT_MEDIUM) && !have_embolden),
            is_italic.map (fun _ =>
              decide (resulting_italic > K.FC_SLANT_ROMAN) && !have_matrix)⟩

/-- The function `FontConfigDirect::Open`: `-1` for an unknown id, otherwise
what `open` returns on the registered path. -/
def FontConfigDirect.Open (cat : Catalog) (self : FontConfigDirect) (fileid : Nat) : Int :=
  match self.fileid_to_filename_ fileid with
  | none => -1
  | some filename => cat.sys_open (c_str filename)

/-! ## Predicates used in the statements -/

/-- The lowered character codes of the C string held by `s`: what
`strcasecmp` reads of it. -/
def lowered (s : String) : List Nat :=
  (s.data.takeWhile (fun c => decide (c.toNat ≠ 0))).map (fun c => tolower c.toNat)

/-- Two C strings are equal ignoring ASCII case. -/
def EqIgnoreCase (a b : String) : Prop :=
  lowered a = lowered b

instance (a b : String) : Decidable (EqIgnoreCase a b) :=
  inferInstanceAs (Decidable (lowered a = lowered b))

/-- The name `a` occurs in the equivalence table, ignoring case. -/
def InTable (a : String) : Prop :=
  ∃ row ∈ kFontEquivClasses, EqIgnoreCase row.name a

/-- The names `a` and `b` both occur in the equivalence table, ignoring
case, in rows that carry the same class id. -/
def SameMetricClass (a b : String) : Prop :=
  ∃ ra ∈ kFontEquivClasses, ∃ rb ∈ kFontEquivClasses,
    EqIgnoreCase ra.name a ∧ EqIgnoreCase rb.name b ∧ ra.id = rb.id

instance (a : String) : Decidable (InTable a) := by
  unfold InTable
  infer_instance

instance (a b : String) : Decidable (SameMetricClass a b) := by
  unfold SameMetricClass
  infer_instance

/-- The string `b` is `a` with the case of some ASCII letters changed: same
length, and the same lowered character at every position. -/
def CaseVariant (a b : String) : Prop :=
  a.data.map (fun c => tolower c.toNat) = b.data.map (fun c => tolower c.toNat)

instance (a b : String) : Decidable (CaseVariant a b) := by
  unfold CaseVariant
  infer_instance

/-- A font pattern passes the three tests of the filter loop: it is marked
scalable, it has a file path, and the path is readable. -/
def Admissible (access : String → Bool) (c : FcPattern) : Prop :=
  c.scalable = some true ∧ ∃ f, c.file = some f ∧ access f = true

instance (access : String → Bool) (c : FcPattern) : Decidable (Admissible access c) :=
  match h : c.file with
  | none => isFalse (fun ⟨_, f, hf, _⟩ => by rw [h] at hf; cases hf)
  | some f =>
    if h1 : c.scalable = some true ∧ access f = true then isTrue ⟨h1.1, f, h, h1.2⟩
    else isFalse (fun ⟨hs, g, hg, ha⟩ => by
      rw [h] at hg
      cases hg
      exact h1 ⟨hs, ha⟩)

/-- A scalable font with the given file and family names and no style data. -/
def plainFont (file : String) (family : List String) : FcPattern :=
  ⟨some true, some file, family, none, none, false, false⟩

/-- A scalable font with the given file, family names, weight and emboldening marker. -/
def styledFont (file : String) (family : List String) (weight : Option Int)
    (embolden : Bool) : FcPattern :=
  ⟨some true, some file, family, weight, none, false, embolden⟩

/-- A catalog with the given fonts, all readable, used in concrete evaluations. -/
def listCatalog (post_config_family : String) (fonts : List FcPattern) : Catalog :=
  ⟨fun _ => post_config_family, fun _ => some fonts, fun _ => true, fun _ => 3⟩

/-- A catalog with one font, used in concrete evaluations. -/
def oneFont (post_config_family : String) (font : FcPattern) : Catalog :=
  ⟨fun _ => post_config_family, fun _ => some [font], fun _ => true, fun _ => 3⟩

/-! ## Sequences of calls -/

/-- The arguments of one call of `Match`, with the catalog as it is at the
time of the call. -/
structure MatchCall where
  cat : Catalog
  result_family : Option String
  result_fileid : Option Nat
  fileid_valid : Bool
  fileid : Nat
  family : String
  is_bold : Option Bool
  is_italic : Option Bool

/-- The call of `Match` with the arguments `c` on the engine `self`. -/
def MatchCall.run (K : Constants) (c : MatchCall) (self : FontConfigDirect) : MatchResult :=
  FontConfigDirect.Match K c.cat self c.result_family c.result_fileid c.fileid_valid
    c.fileid c.family c.is_bold c.is_italic

/-- The font `Match` chooses for the call `c` on the engine `self`, with the
family name after configuration substitution. -/
def MatchCall.select (K : Constants) (c : MatchCall) (self : FontConfigDirect) :
    Except MatchReturn (String × FcPattern) :=
  Match_select K c.cat self c.fileid_valid c.fileid c.family c.is_bold c.is_italic

/-- A call on the engine: `Match` or `Open`. -/
inductive Call where
  | doMatch (c : MatchCall)
  | doOpen (cat : Catalog) (fileid : Nat)

/-- The engine after one call. `Open` reads the engine and leaves it as it is. -/
def step (K : Constants) (self : FontConfigDirect) : Call → FontConfigDirect
  | Call.doMatch c => (c.run K self).self
  | Call.doOpen _ _ => self

/-- The engine after a sequence of calls, first call first. -/
def runCalls (K : Constants) (self : FontConfigDirect) (calls : List Call) : FontConfigDirect :=
  calls.foldl (step K) self

/-- The value of the local variable `out_fileid` of `Match` when the call
reaches lines 261-274, and `none` when it returns before. -/
def Match_out_fileid (K : Constants) (c : MatchCall) (self : FontConfigDirect) : Option Nat :=
  match c.select K self with
  | Except.error _ => none
  | Except.ok (post_config_family, m) =>
    if (!IsFallbackFontAllowed c.family) &&
        (!Match_acceptable_substitute c.family post_config_family m) then none
    else
      match m.file with
      | none => none
      | some filename => some (Match_fileid self c.fileid_valid c.fileid filename).1

/-- The call `c` on the engine `self` is an unpinned call that passes the
substitution check with a chosen font whose path `filename` is not yet in
`filename_to_fileid_`. -/
def Discovers (K : Constants) (c : MatchCall) (self : FontConfigDirect)
    (filename : String) : Prop :=
  c.fileid_valid = false ∧
  ∃ pc m, c.select K self = Except.ok (pc, m) ∧
    (IsFallbackFontAllowed c.family = true ∨
      Match_acceptable_substitute c.family pc m = true) ∧
    m.file = some filename ∧ self.filename_to_fileid_ filename = none

/-- Lines 268-270 of `Match`: the engine after the path `filename` is given
the current value of the counter. -/
def Match_register (self : FontConfigDirect) (filename : String) : FontConfigDirect :=
  ⟨(self.next_file_id_ + 1) % 2 ^ 32,
    fun f => if f = filename then some self.next_file_id_ else self.filename_to_fileid_ f,
    fun i => if i = self.next_file_id_ then some filename else self.fileid_to_filename_ i⟩

/-- The two maps hold the same pairs, and the ids in use are exactly the
numbers below the counter. -/
def Consistent (self : FontConfigDirect) : Prop :=
  (∀ p i, self.filename_to_fileid_ p = some i ↔ self.fileid_to_filename_ i = some p) ∧
  (∀ i, (∃ p, self.fileid_to_filename_ i = some p) ↔ i < self.next_file_id_)

/-- The decimal digit `d` as a character. -/
def digitChar (d : Nat) : Char :=
  Char.ofNat (48 + d)

/-- A path for every number: "/f" followed by the decimal digits of the
number, lowest digit first. -/
def pathOf (i : Nat) : String :=
  String.mk ('/' :: 'f' :: (Nat.digits 10 i).map digitChar)

/-- An unpinned call with no family requested, at a time when the catalog
ranks first a readable scalable font "Sans" stored at `pathOf i`. -/
def freshMatch (i : Nat) : MatchCall :=
  ⟨oneFont "" (plainFont (pathOf i) ["Sans"]), none, some 0, false, 0, "", none, none⟩

/-- The calls `freshMatch 0`, ..., `freshMatch (n - 1)`, in this order. -/
def freshCalls (n : Nat) : List Call :=
  (List.range n).map (fun i => Call.doMatch (freshMatch i))

/-- An unpinned request for "Arial" at a time when the catalog ranks first a
font "Arial" stored at "/a.ttf". -/
def arialCall : MatchCall :=
  ⟨oneFont "Arial" (plainFont "/a.ttf" ["Arial"]), none, some 0, false, 0, "Arial", none, none⟩

/-- An unpinned request for "Times" at a time when the catalog ranks first a
font "Times" stored at "/t.ttf". -/
def timesCall : MatchCall :=
  ⟨oneFont "Times" (plainFont "/t.ttf" ["Times"]), none, some 0, false, 0, "Times", none, none⟩

/-- An unpinned request for "sans" at a time when the catalog ranks first a
readable scalable font stored at "/x.ttf" that has no family name. -/
def namelessCall : MatchCall :=
  ⟨oneFont "sans" (plainFont "/x.ttf" []), none, some 9, false, 0, "sans", none, none⟩

/-! ## `strcasecmp` -/

theorem tolower_eq_zero_iff (n : Nat) : tolower n = 0 ↔ n = 0 := by
  unfold tolower
  split <;> omega

theorem tolower_idem (n : Nat) : tolower (tolower n) = tolower n := by
  unfold tolower
  by_cases h : 65 ≤ n ∧ n ≤ 90
  · rw [if_pos h, if_neg (by omega)]
  · rw [if_neg h, if_neg h]

theorem lowered_nil : lowered (String.mk []) = [] := by
  simp [lowered]

theorem lowered_cons (c : Char) (s : List Char) :
    lowered (String.mk (c :: s)) =
      if c.toNat = 0 then [] else tolower c.toNat :: lowered (String.mk s) := by
  unfold lowered
  by_cases h : c.toNat = 0
  · simp [List.takeWhile_cons, h]
  · simp [List.takeWhile_cons, h]

theorem lowered_eq_nil_iff (s : List Char) :
    lowered (String.mk s) = [] ↔ tolower (peek s) = 0 := by
  cases s with
  | nil =>
    rw [lowered_nil]
    simp [peek, tolower]
  | cons c s =>
    rw [lowered_cons, tolower_eq_zero_iff]
    by_cases h : c.toNat = 0 <;> simp [peek, h]

theorem strcasecmpAux_eq_zero_iff (a b : List Char) :
    strcasecmpAux a b = 0 ↔ lowered (String.mk a) = lowered (String.mk b) := by
  induction a generalizing b with
  | nil =>
    have hb := lowered_eq_nil_iff b
    have h0 : tolower 0 = 0 := rfl
    rw [strcasecmpAux, lowered_nil, h0]
    constructor
    · intro h
      exact (hb.2 (by omega)).symm
    · intro h
      have := hb.1 h.symm
      omega
  | cons c s ih =>
    rw [strcasecmpAux, lowered_cons]
    by_cases hc : c.toNat = 0
    · have h0 : tolower c.toNat = 0 := (tolower_eq_zero_iff _).2 hc
      have hb := lowered_eq_nil_iff b
      simp only [h0, if_pos hc, if_true]
      constructor
      · intro h
        exact (hb.2 (by omega)).symm
      · intro h
        have := hb.1 h.symm
        omega
    · have h0 : tolower c.toNat ≠ 0 := fun h => hc ((tolower_eq_zero_iff _).1 h)
      simp only [if_neg h0, if_neg hc]
      cases b with
      | nil =>
        have hp : tolower (peek []) = 0 := rfl
        have hne : tolower c.toNat ≠ tolower (peek []) := by rw [hp]; exact h0
        simp only [if_neg hne, lowered_nil, hp]
        constructor
        · intro h
          exfalso
          omega
        · intro h
          cases h
      | cons d t =>
        rw [lowered_cons]
        simp only [peek, List.tail_cons]
        by_cases hcd : tolower c.toNat = tolower d.toNat
        · have hd : d.toNat ≠ 0 := fun h => h0 (by rw [hcd]; exact (tolower_eq_zero_iff _).2 h)
          rw [if_pos hcd, if_neg hd, ih t, hcd]
          constructor
          · intro h
            rw [h]
          · intro h
            exact (List.cons.inj h).2
        · rw [if_neg hcd]
          constructor
          · intro h
            exfalso
            omega
          · intro h
            exfalso
            by_cases hd : d.toNat = 0
            · rw [if_pos hd] at h
              cases h
            · rw [if_neg hd] at h
              exact hcd (List.cons.inj h).1

theorem strcasecmp_eq_zero_iff (a b : String) : strcasecmp a b = 0 ↔ EqIgnoreCase a b := by
  unfold strcasecmp EqIgnoreCase
  exact strcasecmpAux_eq_zero_iff a.data b.data

theorem EqIgnoreCase.symm {a b : String} (h : EqIgnoreCase a b) : EqIgnoreCase b a :=
  Eq.symm h

theorem EqIgnoreCase.trans {a b c : String} (h1 : EqIgnoreCase a b) (h2 : EqIgnoreCase b c) :
    EqIgnoreCase a c :=
  Eq.trans h1 h2

/-! ## The table lookup -/

theorem findClass_cases (rows : List FontEquivClass) (font : String) :
    ((∀ row ∈ rows, ¬ EqIgnoreCase row.name font) ∧ findClass rows font = -1) ∨
    (∃ row ∈ rows, EqIgnoreCase row.name font ∧ findClass rows font = row.id) := by
  induction rows with
  | nil =>
    left
    exact ⟨fun row h => (by cases h), rfl⟩
  | cons r rs ih =>
    unfold findClass
    by_cases h : strcasecmp r.name font = 0
    · right
      rw [if_pos h]
      exact ⟨r, List.mem_cons_self _ _, (strcasecmp_eq_zero_iff _ _).1 h, rfl⟩
    · rw [if_neg h]
      rcases ih with ⟨hn, he⟩ | ⟨row, hm, hr, he⟩
      · left
        refine ⟨?_, he⟩
        intro row hm
        rcases List.mem_cons.1 hm with rfl | hm
        · exact fun hr => h ((strcasecmp_eq_zero_iff _ _).2 hr)
        · exact hn row hm
      · right
        exact ⟨row, List.mem_cons_of_mem _ hm, hr, he⟩

/-- No row of the table carries the id `-1` that marks an unknown name. -/
theorem table_id_ne : ∀ row ∈ kFontEquivClasses, row.id ≠ -1 := by
  decide

/-- No name occurs in the table under two class ids: rows whose names are
equal ignoring case carry the same id. -/
theorem table_functional :
    ∀ r1 ∈ kFontEquivClasses, ∀ r2 ∈ kFontEquivClasses,
      lowered r1.name = lowered r2.name → r1.id = r2.id := by
  decide

theorem findClass_of_row {row : FontEquivClass} {font : String}
    (hm : row ∈ kFontEquivClasses) (hr : EqIgnoreCase row.name font) :
    findClass kFontEquivClasses font = row.id := by
  rcases findClass_cases kFontEquivClasses font with ⟨hn, _⟩ | ⟨r, hrm, hrr, he⟩
  · exact absurd hr (hn row hm)
  · rw [he]
    exact table_functional r hrm row hm (hrr.trans hr.symm)

theorem findClass_ne_iff (font : String) :
    findClass kFontEquivClasses font ≠ -1 ↔ InTable font := by
  constructor
  · intro h
    rcases findClass_cases kFontEquivClasses font with ⟨_, he⟩ | ⟨r, hrm, hrr, _⟩
    · exact absurd he h
    · exact ⟨r, hrm, hrr⟩
  · rintro ⟨r, hrm, hrr⟩
    rw [findClass_of_row hrm hrr]
    exact table_id_ne r hrm

theorem isMetricCompatibleReplacement_iff (a b : String) :
    IsMetricCompatibleReplacement a b = true ↔ SameMetricClass a b := by
  unfold IsMetricCompatibleReplacement
  constructor
  · intro h
    by_cases ha : findClass kFontEquivClasses a = -1
    · simp [ha] at h
    · simp only [if_neg ha, decide_eq_true_eq] at h
      have hb : findClass kFontEquivClasses b ≠ -1 := fun hb => ha (h.trans hb)
      obtain ⟨ra, ham, har⟩ := (findClass_ne_iff a).1 ha
      obtain ⟨rb, hbm, hbr⟩ := (findClass_ne_iff b).1 hb
      refine ⟨ra, ham, rb, hbm, har, hbr, ?_⟩
      rw [← findClass_of_row ham har, ← findClass_of_row hbm hbr]
      exact h
  · rintro ⟨ra, ham, rb, hbm, har, hbr, hid⟩
    have ha : findClass kFontEquivClasses a ≠ -1 := (findClass_ne_iff a).2 ⟨ra, ham, har⟩
    simp only [if_neg ha, decide_eq_true_eq]
    rw [findClass_of_row ham har, findClass_of_row hbm hbr]
    exact hid

theorem isMetricCompatibleReplacement_comm (a b : String) :
    IsMetricCompatibleReplacement a b = IsMetricCompatibleReplacement b a := by
  have h : SameMetricClass a b ↔ SameMetricClass b a := by
    constructor
    · rintro ⟨ra, ham, rb, hbm, har, hbr, hid⟩
      exact ⟨rb, hbm, ra, ham, hbr, har, hid.symm⟩
    · rintro ⟨ra, ham, rb, hbm, har, hbr, hid⟩
      exact ⟨rb, hbm, ra, ham, hbr, har, hid.symm⟩
  rw [Bool.eq_iff_iff, isMetricCompatibleReplacement_iff, isMetricCompatibleReplacement_iff]
  exact h

/-! ## The substitution check -/

theorem match_acceptable_empty (pc s : String) : Match_acceptable "" pc s = true := by
  simp [Match_acceptable]

theorem match_acceptable_iff (family pc s : String) (hne : family ≠ "") :
    Match_acceptable family pc s = true ↔
      EqIgnoreCase pc s ∨ EqIgnoreCase family s ∨ SameMetricClass family s := by
  unfold Match_acceptable
  rw [if_neg hne]
  simp only [Bool.or_eq_true, decide_eq_true_eq, strcasecmp_eq_zero_iff,
    isMetricCompatibleReplacement_iff]
  tauto

theorem substitute_loop_iff (family pc : String) (m : FcPattern) (n id : Nat) :
    Match_substitute_loop family pc m n id false = true ↔
      ∃ i, id ≤ i ∧ i < id + n ∧ ∃ s, m.family[i]? = some s ∧
        Match_acceptable family pc s = true := by
  induction n generalizing id with
  | zero =>
    rw [Match_substitute_loop]
    constructor
    · intro h
      cases h
    · rintro ⟨i, h1, h2, _⟩
      omega
  | succ n ih =>
    rw [Match_substitute_loop]
    cases hid : m.family[id]? with
    | none =>
      simp only []
      constructor
      · intro h
        cases h
      · rintro ⟨i, h1, _, s, hs, _⟩
        exfalso
        have hlen : m.family.length ≤ id := List.getElem?_eq_none_iff.1 hid
        have hi : m.family[i]? = none := List.getElem?_eq_none_iff.2 (by omega)
        rw [hi] at hs
        cases hs
    | some s0 =>
      simp only []
      by_cases hacc : Match_acceptable family pc s0 = true
      · rw [if_pos hacc]
        constructor
        · intro _
          exact ⟨id, le_refl _, by omega, s0, hid, hacc⟩
        · intro _
          exact hacc
      · rw [if_neg hacc]
        have hf : Match_acceptable family pc s0 = false := by
          cases h : Match_acceptable family pc s0
          · rfl
          · exact absurd h hacc
        rw [hf, ih (id + 1)]
        constructor
        · rintro ⟨i, h1, h2, s, hs, ha⟩
          exact ⟨i, by omega, by omega, s, hs, ha⟩
        · rintro ⟨i, h1, h2, s, hs, ha⟩
          have hne : i ≠ id := by
            rintro rfl
            rw [hid] at hs
            cases hs
            exact hacc ha
          exact ⟨i, by omega, by omega, s, hs, ha⟩

theorem acceptable_substitute_iff (family pc : String) (m : FcPattern) :
    Match_acceptable_substitute family pc m = true ↔
      ∃ i, i < 255 ∧ ∃ s, m.family[i]? = some s ∧ Match_acceptable family pc s = true := by
  unfold Match_acceptable_substitute
  rw [substitute_loop_iff]
  constructor
  · rintro ⟨i, _, h2, h⟩
    exact ⟨i, by omega, h⟩
  · rintro ⟨i, h2, h⟩
    exact ⟨i, Nat.zero_le _, by omega, h⟩

/-! ## The filter loop -/

theorem match_filter_cons (access : String → Bool) (c : FcPattern) (fonts : List FcPattern) :
    (Admissible access c ∧ Match_filter access (c :: fonts) = some c) ∨
    (¬ Admissible access c ∧ Match_filter access (c :: fonts) = Match_filter access fonts) := by
  by_cases hA : Admissible access c
  · left
    refine ⟨hA, ?_⟩
    obtain ⟨h1, f, h2, h3⟩ := hA
    rw [Match_filter, h1, h2]
    simp only [h3, if_true]
  · right
    refine ⟨hA, ?_⟩
    rw [Match_filter]
    cases hs : c.scalable with
    | none => rfl
    | some b =>
      cases b with
      | false => rfl
      | true =>
        cases hf : c.file with
        | none => rfl
        | some f =>
          simp only []
          by_cases ha : access f = true
          · exact absurd ⟨hs, f, hf, ha⟩ hA
          · rw [if_neg ha]

theorem match_filter_none_iff (access : String → Bool) (fonts : List FcPattern) :
    Match_filter access fonts = none ↔ ∀ c ∈ fonts, ¬ Admissible access c := by
  induction fonts with
  | nil =>
    rw [Match_filter]
    exact ⟨fun _ c h => (by cases h), fun _ => rfl⟩
  | cons c fonts ih =>
    rcases match_filter_cons access c fonts with ⟨ha, he⟩ | ⟨ha, he⟩
    · rw [he]
      constructor
      · intro h
        cases h
      · intro h
        exact absurd ha (h c (List.mem_cons_self _ _))
    · rw [he, ih]
      constructor
      · intro h d hd
        rcases List.mem_cons.1 hd with rfl | hd
        · exact ha
        · exact h d hd
      · intro h d hd
        exact h d (List.mem_cons_of_mem _ hd)

theorem match_filter_some_iff (access : String → Bool) (fonts : List FcPattern)
    (m : FcPattern) :
    Match_filter access fonts = some m ↔
      ∃ before after, fonts = before ++ m :: after ∧
        (∀ c ∈ before, ¬ Admissible access c) ∧ Admissible access m := by
  induction fonts with
  | nil =>
    rw [Match_filter]
    constructor
    · intro h
      cases h
    · rintro ⟨before, after, h, _⟩
      cases before <;> cases h
  | cons c fonts ih =>
    rcases match_filter_cons access c fonts with ⟨ha, he⟩ | ⟨ha, he⟩
    · rw [he]
      constructor
      · intro h
        cases h
        exact ⟨[], fonts, rfl, fun c h => (by cases h), ha⟩
      · rintro ⟨before, after, h, hb, _⟩
        cases before with
        | nil =>
          cases h
          rfl
        | cons b before =>
          cases h
          exact absurd ha (hb c (List.mem_cons_self _ _))
    · rw [he, ih]
      constructor
      · rintro ⟨before, after, h, hb, hm⟩
        refine ⟨c :: before, after, by rw [h]; rfl, ?_, hm⟩
        intro d hd
        rcases List.mem_cons.1 hd with rfl | hd
        · exact ha
        · exact hb d hd
      · rintro ⟨before, after, h, hb, hm⟩
        cases before with
        | nil =>
          cases h
          exact absurd hm ha
        | cons b before =>
          cases h
          exact ⟨before, after, rfl, fun d hd => hb d (List.mem_cons_of_mem _ hd), hm⟩

/-! ## `Match` after a font is chosen -/

theorem match_select_font_set {K : Constants} {cat : Catalog} {self : FontConfigDirect}
    {fileid_valid : Bool} {fileid : Nat} {family : String} {is_bold is_italic : Option Bool}
    {pc : String} {m : FcPattern}
    (h : Match_select K cat self fileid_valid fileid family is_bold is_italic
      = Except.ok (pc, m)) :
    family.length ≤ K.kMaxFontFamilyLength ∧
    ∃ pattern font_set,
      Match_pattern K self fileid_valid fileid family is_bold is_italic = some pattern ∧
      cat.post_config_family pattern = pc ∧
      cat.FcFontSort pattern = some font_set ∧
      Match_filter cat.access font_set = some m := by
  unfold Match_select at h
  by_cases hl : family.length > K.kMaxFontFamilyLength
  · rw [if_pos hl] at h
    cases h
  · rw [if_neg hl] at h
    refine ⟨by omega, ?_⟩
    cases hp : Match_pattern K self fileid_valid fileid family is_bold is_italic with
    | none =>
      rw [hp] at h
      cases h
    | some pattern =>
      rw [hp] at h
      simp only [] at h
      cases hs : cat.FcFontSort pattern with
      | none =>
        rw [hs] at h
        cases h
      | some font_set =>
        rw [hs] at h
        simp only [] at h
        cases hf : Match_filter cat.access font_set with
        | none =>
          rw [hf] at h
          cases h
        | some m1 =>
          rw [hf] at h
          simp only [Except.ok.injEq, Prod.mk.injEq] at h
          obtain ⟨h1, h2⟩ := h
          subst h1 h2
          exact ⟨pattern, font_set, rfl, rfl, hs, hf⟩

theorem match_select_admissible {K : Constants} {cat : Catalog} {self : FontConfigDirect}
    {fileid_valid : Bool} {fileid : Nat} {family : String} {is_bold is_italic : Option Bool}
    {pc : String} {m : FcPattern}
    (h : Match_select K cat self fileid_valid fileid family is_bold is_italic
      = Except.ok (pc, m)) :
    Admissible cat.access m := by
  obtain ⟨_, _, font_set, _, _, _, hf⟩ := match_select_font_set h
  obtain ⟨_, _, _, _, hm⟩ := (match_filter_some_iff _ _ _).1 hf
  exact hm

theorem match_of_select {K : Constants} {cat : Catalog} {self : FontConfigDirect}
    {fileid_valid : Bool} {fileid : Nat} {family : String} {is_bold is_italic : Option Bool}
    {pc : String} {m : FcPattern} (result_family : Option String) (result_fileid : Option Nat)
    (h : Match_select K cat self fileid_valid fileid family is_bold is_italic
      = Except.ok (pc, m)) :
    ∃ filename, m.file = some filename ∧
    FontConfigDirect.Match K cat self result_family result_fileid fileid_valid fileid family
        is_bold is_italic =
      if ((!IsFallbackFontAllowed family) && (!Match_acceptable_substitute family pc m)) = true
      then
        ⟨MatchReturn.unacceptable_substitute, self, result_family, result_fileid,
          is_bold, is_italic⟩
      else
        match m.family[0]? with
        | none =>
          ⟨MatchReturn.no_family, (Match_fileid self fileid_valid fileid filename).2,
            result_family,
            result_fileid.map (fun _ => (Match_fileid self fileid_valid fileid filename).1),
            is_bold, is_italic⟩
        | some c_family =>
          ⟨MatchReturn.ok, (Match_fileid self fileid_valid fileid filename).2,
            result_family.map (fun _ => c_family),
            result_fileid.map (fun _ => (Match_fileid self fileid_valid fileid filename).1),
            is_bold.map (fun _ =>
              decide (m.weight.getD K.FC_WEIGHT_NORMAL > K.FC_WEIGHT_MEDIUM) && !m.embolden),
            is_italic.map (fun _ =>
              decide (m.slant.getD K.FC_SLANT_ROMAN > K.FC_SLANT_ROMAN) && !m.matrix)⟩ := by
  obtain ⟨_, filename, hfile, _⟩ := match_select_admissible h
  refine ⟨filename, hfile, ?_⟩
  unfold FontConfigDirect.Match
  rw [h]
  simp only [hfile]

theorem match_ret_unacceptable_iff {K : Constants} {cat : Catalog} {self : FontConfigDirect}
    {fileid_valid : Bool} {fileid : Nat} {family : String} {is_bold is_italic : Option Bool}
    {pc : String} {m : FcPattern} (result_family : Option String) (result_fileid : Option Nat)
    (h : Match_select K cat self fileid_valid fileid family is_bold is_italic
      = Except.ok (pc, m)) :
    (FontConfigDirect.Match K cat self result_family result_fileid fileid_valid fileid family
        is_bold is_italic).ret = MatchReturn.unacceptable_substitute ↔
      (IsFallbackFontAllowed family = false ∧
        Match_acceptable_substitute family pc m = false) := by
  obtain ⟨filename, _, he⟩ := match_of_select result_family result_fileid h
  rw [he]
  cases hfb : IsFallbackFontAllowed family <;>
    cases hacc : Match_acceptable_substitute family pc m <;>
    cases hfam : m.family[0]? <;> simp

theorem match_ret_ok_iff {K : Constants} {cat : Catalog} {self : FontConfigDirect}
    {fileid_valid : Bool} {fileid : Nat} {family : String} {is_bold is_italic : Option Bool}
    {pc : String} {m : FcPattern} (result_family : Option String) (result_fileid : Option Nat)
    (h : Match_select K cat self fileid_valid fileid family is_bold is_italic
      = Except.ok (pc, m)) :
    (FontConfigDirect.Match K cat self result_family result_fileid fileid_valid fileid family
        is_bold is_italic).ret = MatchReturn.ok ↔
      ((IsFallbackFontAllowed family = true ∨
          Match_acceptable_substitute family pc m = true) ∧ m.family ≠ []) := by
  obtain ⟨filename, _, he⟩ := match_of_select result_family result_fileid h
  rw [he]
  cases hfb : IsFallbackFontAllowed family <;>
    cases hacc : Match_acceptable_substitute family pc m <;>
    cases hfam : m.family with
    | nil => simp
    | cons a l => simp

/-! ## Changing the case of letters -/

theorem lowered_of_map_eq (la lb : List Char)
    (h : la.map (fun c => tolower c.toNat) = lb.map (fun c => tolower c.toNat)) :
    lowered (String.mk la) = lowered (String.mk lb) := by
  induction la generalizing lb with
  | nil =>
    cases lb with
    | nil => rfl
    | cons d t => cases h
  | cons c s ih =>
    cases lb with
    | nil => cases h
    | cons d t =>
      simp only [List.map_cons] at h
      obtain ⟨h1, h2⟩ := List.cons.inj h
      have hz : c.toNat = 0 ↔ d.toNat = 0 := by
        rw [← tolower_eq_zero_iff c.toNat, ← tolower_eq_zero_iff d.toNat, h1]
      rw [lowered_cons, lowered_cons, ih t h2, h1]
      by_cases hc : c.toNat = 0
      · rw [if_pos hc, if_pos (hz.1 hc)]
      · rw [if_neg hc, if_neg (fun hd => hc (hz.2 hd))]

theorem CaseVariant.eqIgnoreCase {a b : String} (h : CaseVariant a b) : EqIgnoreCase a b :=
  lowered_of_map_eq a.data b.data h

theorem string_eq_empty_iff (a : String) : a = "" ↔ a.data = [] := by
  constructor
  · intro h
    rw [h]
  · intro h
    exact String.ext h

theorem CaseVariant.empty_iff {a b : String} (h : CaseVariant a b) : a = "" ↔ b = "" := by
  rw [string_eq_empty_iff, string_eq_empty_iff]
  unfold CaseVariant at h
  constructor
  · intro ha
    rw [ha] at h
    exact List.map_eq_nil_iff.1 h.symm
  · intro hb
    rw [hb] at h
    exact List.map_eq_nil_iff.1 h

theorem isMetricCompatibleReplacement_congr {a a1 b b1 : String}
    (ha : EqIgnoreCase a a1) (hb : EqIgnoreCase b b1) :
    IsMetricCompatibleReplacement a b = IsMetricCompatibleReplacement a1 b1 := by
  rw [Bool.eq_iff_iff, isMetricCompatibleReplacement_iff, isMetricCompatibleReplacement_iff]
  constructor
  · rintro ⟨ra, ham, rb, hbm, har, hbr, hid⟩
    exact ⟨ra, ham, rb, hbm, har.trans ha, hbr.trans hb, hid⟩
  · rintro ⟨ra, ham, rb, hbm, har, hbr, hid⟩
    exact ⟨ra, ham, rb, hbm, har.trans ha.symm, hbr.trans hb.symm, hid⟩

theorem strcasecmp_congr {a a1 b b1 : String}
    (ha : EqIgnoreCase a a1) (hb : EqIgnoreCase b b1) :
    decide (strcasecmp a b = 0) = decide (strcasecmp a1 b1 = 0) := by
  rw [Bool.eq_iff_iff, decide_eq_true_eq, decide_eq_true_eq, strcasecmp_eq_zero_iff,
    strcasecmp_eq_zero_iff]
  constructor
  · intro h
    exact ha.symm.trans (h.trans hb)
  · intro h
    exact ha.trans (h.trans hb.symm)

theorem isFallbackFontAllowed_congr {a a1 : String} (ha : EqIgnoreCase a a1) :
    IsFallbackFontAllowed a = IsFallbackFontAllowed a1 := by
  unfold IsFallbackFontAllowed
  rw [strcasecmp_congr ha (Eq.refl (lowered "sans")),
    strcasecmp_congr ha (Eq.refl (lowered "serif")),
    strcasecmp_congr ha (Eq.refl (lowered "monospace")),
    strcasecmp_congr ha (Eq.refl (lowered "NonAntiAliasedSans"))]

theorem match_acceptable_congr {family family1 pc pc1 s s1 : String}
    (hf : CaseVariant family family1) (hpc : EqIgnoreCase pc pc1) (hs : EqIgnoreCase s s1) :
    Match_acceptable family pc s = Match_acceptable family1 pc1 s1 := by
  unfold Match_acceptable
  by_cases he : family = ""
  · rw [if_pos he, if_pos (hf.empty_iff.1 he)]
  · rw [if_neg he, if_neg (fun h => he (hf.empty_iff.2 h)),
      strcasecmp_congr hpc hs, strcasecmp_congr hf.eqIgnoreCase hs,
      isMetricCompatibleReplacement_congr hf.eqIgnoreCase hs]

theorem forall₂_getElem? {R : String → String → Prop} {l l1 : List String}
    (h : List.Forall₂ R l l1) (i : Nat) (s : String) (hs : l[i]? = some s) :
    ∃ s1, l1[i]? = some s1 ∧ R s s1 := by
  induction h generalizing i with
  | nil => cases hs
  | cons hab _ ih =>
    cases i with
    | zero =>
      rw [List.getElem?_cons_zero] at hs
      cases hs
      exact ⟨_, List.getElem?_cons_zero, hab⟩
    | succ i =>
      rw [List.getElem?_cons_succ] at hs
      obtain ⟨s1, h1, h2⟩ := ih i hs
      exact ⟨s1, by rw [List.getElem?_cons_succ]; exact h1, h2⟩

theorem forall₂_getElem?_rev {R : String → String → Prop} {l l1 : List String}
    (h : List.Forall₂ R l l1) (i : Nat) (s1 : String) (hs : l1[i]? = some s1) :
    ∃ s, l[i]? = some s ∧ R s s1 := by
  induction h generalizing i with
  | nil => cases hs
  | cons hab _ ih =>
    cases i with
    | zero =>
      rw [List.getElem?_cons_zero] at hs
      cases hs
      exact ⟨_, List.getElem?_cons_zero, hab⟩
    | succ i =>
      rw [List.getElem?_cons_succ] at hs
      obtain ⟨s, h1, h2⟩ := ih i hs
      exact ⟨s, by rw [List.getElem?_cons_succ]; exact h1, h2⟩

theorem acceptable_substitute_congr {family family1 pc pc1 : String} {m m1 : FcPattern}
    (hf : CaseVariant family family1) (hpc : EqIgnoreCase pc pc1)
    (hm : List.Forall₂ CaseVariant m.family m1.family) :
    Match_acceptable_substitute family pc m = Match_acceptable_substitute family1 pc1 m1 := by
  rw [Bool.eq_iff_iff, acceptable_substitute_iff, acceptable_substitute_iff]
  constructor
  · rintro ⟨i, hi, s, hs, ha⟩
    obtain ⟨s1, hs1, hr⟩ := forall₂_getElem? hm i s hs
    exact ⟨i, hi, s1, hs1, by rw [← match_acceptable_congr hf hpc hr.eqIgnoreCase]; exact ha⟩
  · rintro ⟨i, hi, s1, hs1, ha⟩
    obtain ⟨s, hs, hr⟩ := forall₂_getElem?_rev hm i s1 hs1
    exact ⟨i, hi, s, hs, by rw [match_acceptable_congr hf hpc hr.eqIgnoreCase]; exact ha⟩

theorem match_select_eq {K : Constants} (cat : Catalog) {self : FontConfigDirect}
    {fileid_valid : Bool} {fileid : Nat} {family : String} {is_bold is_italic : Option Bool}
    {pattern : Query} {font_set : List FcPattern}
    (hlen : family.length ≤ K.kMaxFontFamilyLength)
    (hpat : Match_pattern K self fileid_valid fileid family is_bold is_italic = some pattern)
    (hsort : cat.FcFontSort pattern = some font_set) :
    Match_select K cat self fileid_valid fileid family is_bold is_italic =
      match Match_filter cat.access font_set with
      | none => Except.error MatchReturn.no_match
      | some m => Except.ok (cat.post_config_family pattern, m) := by
  unfold Match_select
  rw [if_neg (by omega), hpat]
  simp only [hsort]

/-! ## Substitution validation -/

/-- C2: `IsMetricCompatibleReplacement a b` holds exactly when `a` and `b`
both equal, ignoring case, a name of the table and the two rows carry the
same class id; it is false as soon as one of the names is absent from the
table, also when `a` and `b` are the same absent name. -/
theorem isMetricCompatibleReplacement_spec (a b : String) :
    (IsMetricCompatibleReplacement a b = true ↔
      ∃ ra ∈ kFontEquivClasses, ∃ rb ∈ kFontEquivClasses,
        EqIgnoreCase ra.name a ∧ EqIgnoreCase rb.name b ∧ ra.id = rb.id) ∧
    ((¬ InTable a ∨ ¬ InTable b) → IsMetricCompatibleReplacement a b = false) ∧
    (¬ InTable a → IsMetricCompatibleReplacement a a = false) := by
  have hab : ∀ x y : String, (¬ InTable x ∨ ¬ InTable y) →
      IsMetricCompatibleReplacement x y = false := by
    intro x y h
    cases hv : IsMetricCompatibleReplacement x y
    · rfl
    · exfalso
      obtain ⟨ra, ham, rb, hbm, har, hbr, _⟩ := (isMetricCompatibleReplacement_iff x y).1 hv
      rcases h with h | h
      · exact h ⟨ra, ham, har⟩
      · exact h ⟨rb, hbm, hbr⟩
  exact ⟨isMetricCompatibleReplacement_iff a b, hab a b, fun h => hab a a (Or.inl h)⟩

/-- C2, at concrete inputs: a pair of one class, a pair of two classes, and an
absent name against itself. -/
theorem isMetricCompatibleReplacement_spec_witness :
    IsMetricCompatibleReplacement "Times" "nimbus roman no9 l" = true ∧
    IsMetricCompatibleReplacement "Times" "Times New Roman" = false ∧
    IsMetricCompatibleReplacement "Monaco" "Monaco" = false :=
  ⟨(isMetricCompatibleReplacement_spec "Times" "nimbus roman no9 l").1.2 (by decide),
    by decide,
    (isMetricCompatibleReplacement_spec "Monaco" "Monaco").2.2 (by decide)⟩

/-- C3: `IsMetricCompatibleReplacement` gives the same result with its
arguments exchanged; and when two names are in the same class, the
substitution check accepts with either one as the requested family and the
other as a family name of the chosen font (at an alias index below 255),
whatever the post-configuration family is. -/
theorem isMetricCompatibleReplacement_symm (a b : String) :
    IsMetricCompatibleReplacement a b = IsMetricCompatibleReplacement b a ∧
    (IsMetricCompatibleReplacement a b = true →
      ∀ (pc : String) (ma mb : FcPattern) (i j : Nat), i < 255 → j < 255 →
        ma.family[i]? = some a → mb.family[j]? = some b →
        Match_acceptable_substitute a pc mb = true ∧
        Match_acceptable_substitute b pc ma = true) := by
  refine ⟨isMetricCompatibleReplacement_comm a b, ?_⟩
  intro hab pc ma mb i j hi hj hma hmb
  have hba : IsMetricCompatibleReplacement b a = true := by
    rw [← isMetricCompatibleReplacement_comm a b]
    exact hab
  have acc : ∀ x y : String, IsMetricCompatibleReplacement x y = true →
      Match_acceptable x pc y = true := by
    intro x y h
    unfold Match_acceptable
    split
    · rfl
    · rw [h]
      simp
  constructor
  · exact (acceptable_substitute_iff a pc mb).2 ⟨j, hj, b, hmb, acc a b hab⟩
  · exact (acceptable_substitute_iff b pc ma).2 ⟨i, hi, a, hma, acc b a hba⟩

/-- C3, at "Arial" and "Liberation Sans", in both orders. -/
theorem isMetricCompatibleReplacement_symm_witness :
    Match_acceptable_substitute "Arial" "Arial" (plainFont "/l.ttf" ["Liberation Sans"]) = true ∧
    Match_acceptable_substitute "Liberation Sans" "Arial" (plainFont "/a.ttf" ["Arial"]) = true :=
  (isMetricCompatibleReplacement_symm "Arial" "Liberation Sans").2 (by decide) "Arial"
    (plainFont "/a.ttf" ["Arial"]) (plainFont "/l.ttf" ["Liberation Sans"]) 0 0
    (by decide) (by decide) rfl rfl

/-- C4: for a non-empty requested family that is not fallback-allowed and
not in the equivalence table, when the post-configuration family is the
requested name and no family name of the chosen font equals the requested
name ignoring case, `Match` returns at the unacceptable-substitution
`return`, with result `false`. -/
theorem missing_font_rejected (K : Constants) (cat : Catalog) (self : FontConfigDirect)
    (result_family : Option String) (result_fileid : Option Nat)
    (fileid_valid : Bool) (fileid : Nat) (family : String)
    (is_bold is_italic : Option Bool) (pc : String) (m : FcPattern)
    (hne : family ≠ "") (hfb : IsFallbackFontAllowed family = false)
    (hnt : ¬ InTable family) (hpc : EqIgnoreCase pc family)
    (hnone : ∀ s ∈ m.family, ¬ EqIgnoreCase family s)
    (hsel : Match_select K cat self fileid_valid fileid family is_bold is_italic
      = Except.ok (pc, m)) :
    (FontConfigDirect.Match K cat self result_family result_fileid fileid_valid fileid
      family is_bold is_italic).ret = MatchReturn.unacceptable_substitute ∧
    (FontConfigDirect.Match K cat self result_family result_fileid fileid_valid fileid
      family is_bold is_italic).ret.toBool = false := by
  have hrej : Match_acceptable_substitute family pc m = false := by
    cases hv : Match_acceptable_substitute family pc m
    · rfl
    · exfalso
      obtain ⟨i, _, s, hs, ha⟩ := (acceptable_substitute_iff family pc m).1 hv
      have hmem : s ∈ m.family := List.getElem?_mem hs
      rcases (match_acceptable_iff family pc s hne).1 ha with h | h | h
      · exact hnone s hmem (hpc.symm.trans h)
      · exact hnone s hmem h
      · obtain ⟨ra, ham, _, _, har, _, _⟩ := h
        exact hnt ⟨ra, ham, har⟩
  have hret := (match_ret_unacceptable_iff result_family result_fileid hsel).2 ⟨hfb, hrej⟩
  refine ⟨hret, ?_⟩
  rw [hret]
  rfl

/-- C4, at the example of the source: "Monaco" requested, the font found is
"Times New Roman". -/
theorem missing_font_rejected_witness :
    (FontConfigDirect.Match stdConstants
      (oneFont "Monaco" (plainFont "/t.ttf" ["Times New Roman"]))
      FontConfigDirect.construct none none false 0 "Monaco" none none).ret
        = MatchReturn.unacceptable_substitute ∧
    (FontConfigDirect.Match stdConstants
      (oneFont "Monaco" (plainFont "/t.ttf" ["Times New Roman"]))
      FontConfigDirect.construct none none false 0 "Monaco" none none).ret.toBool = false :=
  missing_font_rejected stdConstants (oneFont "Monaco" (plainFont "/t.ttf" ["Times New Roman"]))
    FontConfigDirect.construct none none false 0 "Monaco" none none "Monaco"
    (plainFont "/t.ttf" ["Times New Roman"]) (by decide) (by decide) (by decide) (by decide)
    (by decide) rfl

/-- C5: when a family name of the chosen font at an alias index below 255,
the first or a later one, equals the requested family ignoring case, the
substitution check accepts, whatever the post-configuration family is. -/
theorem requested_alias_accepted (family pc : String) (m : FcPattern) (i : Nat) (s : String)
    (hne : family ≠ "") (hi : i < 255) (hs : m.family[i]? = some s)
    (heq : EqIgnoreCase family s) :
    Match_acceptable_substitute family pc m = true :=
  (acceptable_substitute_iff family pc m).2
    ⟨i, hi, s, hs, (match_acceptable_iff family pc s hne).2 (Or.inr (Or.inl heq))⟩

/-- C5, at the example of the source: "Bitstream Vera Sans" requested,
"Arial" after configuration, and the requested name is the second alias. -/
theorem requested_alias_accepted_witness :
    Match_acceptable_substitute "Bitstream Vera Sans" "Arial"
      (plainFont "/v.ttf" ["DejaVu Sans", "Bitstream Vera Sans"]) = true :=
  requested_alias_accepted "Bitstream Vera Sans" "Arial"
    (plainFont "/v.ttf" ["DejaVu Sans", "Bitstream Vera Sans"]) 1 "Bitstream Vera Sans"
    (by decide) (by decide) rfl (by decide)

/-- C6: when the requested family equals "sans", "serif", "monospace" or
"NonAntiAliasedSans" ignoring case and the chosen font has a first family
name, `Match` succeeds and returns that name, whatever the family names of
the font and the post-configuration family are, also when the substitution
check would reject the font. -/
theorem fallback_family_bypass (K : Constants) (cat : Catalog) (self : FontConfigDirect)
    (result_family : Option String) (result_fileid : Option Nat)
    (fileid_valid : Bool) (fileid : Nat) (family : String)
    (is_bold is_italic : Option Bool) (pc : String) (m : FcPattern) (first : String)
    (hfb : EqIgnoreCase family "sans" ∨ EqIgnoreCase family "serif" ∨
      EqIgnoreCase family "monospace" ∨ EqIgnoreCase family "NonAntiAliasedSans")
    (hsel : Match_select K cat self fileid_valid fileid family is_bold is_italic
      = Except.ok (pc, m))
    (hfirst : m.family[0]? = some first) :
    (FontConfigDirect.Match K cat self result_family result_fileid fileid_valid fileid
      family is_bold is_italic).ret = MatchReturn.ok ∧
    (FontConfigDirect.Match K cat self result_family result_fileid fileid_valid fileid
      family is_bold is_italic).ret.toBool = true ∧
    (FontConfigDirect.Match K cat self result_family result_fileid fileid_valid fileid
      family is_bold is_italic).result_family = result_family.map (fun _ => first) := by
  have hallowed : IsFallbackFontAllowed family = true := by
    unfold IsFallbackFontAllowed
    simp only [Bool.or_eq_true, decide_eq_true_eq, strcasecmp_eq_zero_iff]
    tauto
  obtain ⟨filename, _, he⟩ := match_of_select result_family result_fileid hsel
  rw [he, hallowed, hfirst]
  simp [MatchReturn.toBool]

/-- C6, at the example of the spec: "Serif" requested and the font found is
"Nimbus Roman No9 L", which the substitution check alone would reject. -/
theorem fallback_family_bypass_witness :
    Match_acceptable_substitute "Serif" "Serif"
      (plainFont "/n.ttf" ["Nimbus Roman No9 L"]) = false ∧
    (FontConfigDirect.Match stdConstants
      (oneFont "Serif" (plainFont "/n.ttf" ["Nimbus Roman No9 L"]))
      FontConfigDirect.construct (some "") none false 0 "Serif" none none).ret
        = MatchReturn.ok :=
  ⟨by decide,
    (fallback_family_bypass stdConstants
      (oneFont "Serif" (plainFont "/n.ttf" ["Nimbus Roman No9 L"]))
      FontConfigDirect.construct (some "") none false 0 "Serif" none none "Serif"
      (plainFont "/n.ttf" ["Nimbus Roman No9 L"]) "Nimbus Roman No9 L"
      (by decide) rfl rfl).1⟩

/-- C7 as stated fails: with an empty requested family and a chosen font
that exposes no family name, the substitution check rejects and `Match`
returns at the unacceptable-substitution `return`. -/
theorem empty_family_nameless_font_rejected :
    IsFallbackFontAllowed "" = false ∧
    Match_acceptable_substitute "" "" (plainFont "/x.ttf" []) = false ∧
    (FontConfigDirect.Match stdConstants (oneFont "" (plainFont "/x.ttf" []))
      FontConfigDirect.construct none none false 0 "" none none).ret
        = MatchReturn.unacceptable_substitute := by
  decide

/-- C7, amended: when the requested family is empty, the substitution check
accepts every chosen font that exposes at least one family name, whatever
its names are, and `Match` then succeeds; a font that exposes no family name
is rejected by the check. -/
theorem empty_family_accepts_named_font (K : Constants) (cat : Catalog)
    (self : FontConfigDirect) (result_family : Option String) (result_fileid : Option Nat)
    (fileid_valid : Bool) (fileid : Nat) (is_bold is_italic : Option Bool)
    (pc : String) (m : FcPattern)
    (hsel : Match_select K cat self fileid_valid fileid "" is_bold is_italic
      = Except.ok (pc, m)) :
    (m.family ≠ [] →
      Match_acceptable_substitute "" pc m = true ∧
      (FontConfigDirect.Match K cat self result_family result_fileid fileid_valid fileid
        "" is_bold is_italic).ret = MatchReturn.ok) ∧
    (m.family = [] →
      Match_acceptable_substitute "" pc m = false ∧
      (FontConfigDirect.Match K cat self result_family result_fileid fileid_valid fileid
        "" is_bold is_italic).ret = MatchReturn.unacceptable_substitute) := by
  constructor
  · intro hne
    have hacc : Match_acceptable_substitute "" pc m = true := by
      rw [acceptable_substitute_iff]
      cases hfam : m.family with
      | nil => exact absurd hfam hne
      | cons a l => exact ⟨0, by omega, a, List.getElem?_cons_zero, match_acceptable_empty pc a⟩
    exact ⟨hacc, (match_ret_ok_iff result_family result_fileid hsel).2 ⟨Or.inr hacc, hne⟩⟩
  · intro hnil
    have hrej : Match_acceptable_substitute "" pc m = false := by
      cases hv : Match_acceptable_substitute "" pc m
      · rfl
      · exfalso
        obtain ⟨i, _, s, hs, _⟩ := (acceptable_substitute_iff "" pc m).1 hv
        rw [hnil] at hs
        cases hs
    exact ⟨hrej,
      (match_ret_unacceptable_iff result_family result_fileid hsel).2 ⟨by decide, hrej⟩⟩

/-- C7 amended, at a concrete input: no family requested, the font found is
"DejaVu Sans". -/
theorem empty_family_accepts_named_font_witness :
    Match_acceptable_substitute "" "DejaVu Sans" (plainFont "/d.ttf" ["DejaVu Sans"]) = true ∧
    (FontConfigDirect.Match stdConstants
      (oneFont "DejaVu Sans" (plainFont "/d.ttf" ["DejaVu Sans"]))
      FontConfigDirect.construct none none false 0 "" none none).ret = MatchReturn.ok :=
  (empty_family_accepts_named_font stdConstants
    (oneFont "DejaVu Sans" (plainFont "/d.ttf" ["DejaVu Sans"]))
    FontConfigDirect.construct none none false 0 none none "DejaVu Sans"
    (plainFont "/d.ttf" ["DejaVu Sans"]) rfl).1 (by decide)

/-- C8: the results of `IsMetricCompatibleReplacement`, of
`IsFallbackFontAllowed` and of the substitution check of `Match` do not
change when the case of ASCII letters is changed in the requested family, in
the post-configuration family or in any family name of the chosen font. -/
theorem case_insensitive (a a1 b b1 family family1 pc pc1 : String) (m m1 : FcPattern)
    (ha : CaseVariant a a1) (hb : CaseVariant b b1)
    (hf : CaseVariant family family1) (hpc : CaseVariant pc pc1)
    (hm : List.Forall₂ CaseVariant m.family m1.family) :
    IsMetricCompatibleReplacement a b = IsMetricCompatibleReplacement a1 b1 ∧
    IsFallbackFontAllowed family = IsFallbackFontAllowed family1 ∧
    Match_acceptable_substitute family pc m = Match_acceptable_substitute family1 pc1 m1 :=
  ⟨isMetricCompatibleReplacement_congr ha.eqIgnoreCase hb.eqIgnoreCase,
    isFallbackFontAllowed_congr hf.eqIgnoreCase,
    acceptable_substitute_congr hf hpc.eqIgnoreCase hm⟩

/-- C8, at "ARIAL" against "arial" and "Times" against "TIMES". -/
theorem case_insensitive_witness :
    IsMetricCompatibleReplacement "ARIAL" "Albany" = IsMetricCompatibleReplacement "arial" "ALBANY" ∧
    IsFallbackFontAllowed "Times" = IsFallbackFontAllowed "TIMES" ∧
    Match_acceptable_substitute "Times" "Helvetica" (plainFont "/a.ttf" ["Foo", "Arial"]) =
      Match_acceptable_substitute "TIMES" "HELVETICA" (plainFont "/a.ttf" ["FOO", "arial"]) :=
  case_insensitive "ARIAL" "arial" "Albany" "ALBANY" "Times" "TIMES" "Helvetica" "HELVETICA"
    (plainFont "/a.ttf" ["Foo", "Arial"]) (plainFont "/a.ttf" ["FOO", "arial"])
    (by decide) (by decide) (by decide) (by decide)
    (List.Forall₂.cons (by decide) (List.Forall₂.cons (by decide) List.Forall₂.nil))

/-- C9: the font `Match` chooses is the first of the sorted font set that is
marked scalable, has a file path and whose path is readable: every font
before it fails one of the tests, and fonts that fail are passed over
wherever they stand; `Match` returns at the no-match `return` exactly when
no font of the set passes the three tests. -/
theorem candidate_filter (K : Constants) (cat : Catalog) (self : FontConfigDirect)
    (result_family : Option String) (result_fileid : Option Nat)
    (fileid_valid : Bool) (fileid : Nat) (family : String)
    (is_bold is_italic : Option Bool) (pattern : Query) (font_set : List FcPattern)
    (hlen : family.length ≤ K.kMaxFontFamilyLength)
    (hpat : Match_pattern K self fileid_valid fileid family is_bold is_italic = some pattern)
    (hsort : cat.FcFontSort pattern = some font_set) :
    (∀ pc m, Match_select K cat self fileid_valid fileid family is_bold is_italic
        = Except.ok (pc, m) ↔
      (pc = cat.post_config_family pattern ∧
        ∃ before after, font_set = before ++ m :: after ∧
          (∀ c ∈ before, ¬ Admissible cat.access c) ∧ Admissible cat.access m)) ∧
    ((FontConfigDirect.Match K cat self result_family result_fileid fileid_valid fileid
        family is_bold is_italic).ret = MatchReturn.no_match ↔
      ∀ c ∈ font_set, ¬ Admissible cat.access c) ∧
    ((∀ c ∈ font_set, ¬ Admissible cat.access c) →
      (FontConfigDirect.Match K cat self result_family result_fileid fileid_valid fileid
        family is_bold is_italic).ret.toBool = false) := by
  have hsel := match_select_eq cat hlen hpat hsort
  have h1 : ∀ pc m, Match_select K cat self fileid_valid fileid family is_bold is_italic
        = Except.ok (pc, m) ↔
      (pc = cat.post_config_family pattern ∧
        ∃ before after, font_set = before ++ m :: after ∧
          (∀ c ∈ before, ¬ Admissible cat.access c) ∧ Admissible cat.access m) := by
    intro pc m
    rw [← match_filter_some_iff, hsel]
    cases hfil : Match_filter cat.access font_set with
    | none => simp
    | some m1 =>
      simp only [Except.ok.injEq, Prod.mk.injEq, Option.some.injEq]
      constructor
      · rintro ⟨h, h2⟩
        exact ⟨h.symm, h2⟩
      · rintro ⟨h, h2⟩
        exact ⟨h.symm, h2⟩
  have h2 : (FontConfigDirect.Match K cat self result_family result_fileid fileid_valid fileid
        family is_bold is_italic).ret = MatchReturn.no_match ↔
      ∀ c ∈ font_set, ¬ Admissible cat.access c := by
    rw [← match_filter_none_iff]
    cases hfil : Match_filter cat.access font_set with
    | none =>
      rw [hfil] at hsel
      unfold FontConfigDirect.Match
      rw [hsel]
      simp
    | some m1 =>
      rw [hfil] at hsel
      obtain ⟨filename, _, he⟩ := match_of_select result_family result_fileid hsel
      rw [he]
      cases hfb : IsFallbackFontAllowed family <;>
        cases hacc : Match_acceptable_substitute family (cat.post_config_family pattern) m1 <;>
        cases hfam : m1.family[0]? <;> simp
  refine ⟨h1, h2, ?_⟩
  intro h
  rw [h2.2 h]
  rfl

/-- C9, at a font set whose first font is not scalable, whose second has no
file, and whose third passes: the third is chosen. -/
theorem candidate_filter_witness :
    Match_select stdConstants
      (listCatalog "Arial"
        [⟨some false, some "/b.pcf", ["Arial"], none, none, false, false⟩,
          ⟨some true, none, ["Arial"], none, none, false, false⟩,
          plainFont "/a.ttf" ["Arial"],
          plainFont "/z.ttf" ["Arial"]])
      FontConfigDirect.construct false 0 "Arial" none none
        = Except.ok ("Arial", plainFont "/a.ttf" ["Arial"]) :=
  ((candidate_filter stdConstants
      (listCatalog "Arial"
        [⟨some false, some "/b.pcf", ["Arial"], none, none, false, false⟩,
          ⟨some true, none, ["Arial"], none, none, false, false⟩,
          plainFont "/a.ttf" ["Arial"],
          plainFont "/z.ttf" ["Arial"]])
      FontConfigDirect.construct none none false 0 "Arial" none none
      ⟨none, some "Arial", 80, 0, true⟩ _ (by decide) rfl rfl).1 "Arial"
      (plainFont "/a.ttf" ["Arial"])).2
    ⟨rfl, [⟨some false, some "/b.pcf", ["Arial"], none, none, false, false⟩,
        ⟨some true, none, ["Arial"], none, none, false, false⟩],
      [plainFont "/z.ttf" ["Arial"]], rfl, (by decide), (by decide)⟩

/-- C10: on a successful `Match`, the bold flag written back is `true`
exactly when the weight the chosen font reports (the normal weight when it
reports none) is greater than the medium weight and the font has no
emboldening marker; the italic flag is `true` exactly when the reported
slant (roman when none is reported) is greater than roman and the font has
no matrix marker; a flag is written exactly when its pointer is not null. A
font that reports the bold weight and carries an emboldening marker gives
the bold flag `false`. -/
theorem style_resolution (K : Constants) (cat : Catalog) (self : FontConfigDirect)
    (result_family : Option String) (result_fileid : Option Nat)
    (fileid_valid : Bool) (fileid : Nat) (family : String)
    (is_bold is_italic : Option Bool) (pc : String) (m : FcPattern)
    (hsel : Match_select K cat self fileid_valid fileid family is_bold is_italic
      = Except.ok (pc, m))
    (hok : (FontConfigDirect.Match K cat self result_family result_fileid fileid_valid fileid
      family is_bold is_italic).ret = MatchReturn.ok) :
    (∃ bold : Bool,
      (bold = true ↔
        (K.FC_WEIGHT_MEDIUM < (match m.weight with
          | some w => w
          | none => K.FC_WEIGHT_NORMAL) ∧ m.embolden = false)) ∧
      (FontConfigDirect.Match K cat self result_family result_fileid fileid_valid fileid
        family is_bold is_italic).is_bold = is_bold.map (fun _ => bold)) ∧
    (∃ italic : Bool,
      (italic = true ↔
        (K.FC_SLANT_ROMAN < (match m.slant with
          | some w => w
          | none => K.FC_SLANT_ROMAN) ∧ m.matrix = false)) ∧
      (FontConfigDirect.Match K cat self result_family result_fileid fileid_valid fileid
        family is_bold is_italic).is_italic = is_italic.map (fun _ => italic)) ∧
    (m.weight = some K.FC_WEIGHT_BOLD → m.embolden = true →
      (FontConfigDirect.Match K cat self result_family result_fileid fileid_valid fileid
        family is_bold is_italic).is_bold = is_bold.map (fun _ => false)) := by
  obtain ⟨filename, _, he⟩ := match_of_select result_family result_fileid hsel
  rw [he] at hok ⊢
  by_cases hc : ((!IsFallbackFontAllowed family) &&
      (!Match_acceptable_substitute family pc m)) = true
  · rw [if_pos hc] at hok
    cases hok
  · rw [if_neg hc] at hok ⊢
    cases hfam : m.family[0]? with
    | none =>
      rw [hfam] at hok
      cases hok
    | some c_family =>
      simp only []
      refine ⟨⟨decide (m.weight.getD K.FC_WEIGHT_NORMAL > K.FC_WEIGHT_MEDIUM) && !m.embolden,
        ?_, rfl⟩,
        ⟨decide (m.slant.getD K.FC_SLANT_ROMAN > K.FC_SLANT_ROMAN) && !m.matrix, ?_, rfl⟩, ?_⟩
      · cases m.weight <;> cases m.embolden <;> simp
      · cases m.slant <;> cases m.matrix <;> simp
      · intro _ hemb
        rw [hemb]
        simp

/-- C10, at a font that reports the bold weight and carries the emboldening
marker, for a request that asks for bold: the bold flag comes back `false`. -/
theorem style_resolution_witness :
    (FontConfigDirect.Match stdConstants
      (oneFont "Arial" (styledFont "/a.ttf" ["Arial"] (some 200) true))
      FontConfigDirect.construct none none false 0 "Arial" (some true) none).is_bold
        = some false :=
  (style_resolution stdConstants
    (oneFont "Arial" (styledFont "/a.ttf" ["Arial"] (some 200) true))
    FontConfigDirect.construct none none false 0 "Arial" (some true) none "Arial"
    (styledFont "/a.ttf" ["Arial"] (some 200) true) rfl (by decide)).2.2 rfl rfl

/-! ## The early returns -/

theorem match_select_too_long_iff (K : Constants) (cat : Catalog) (self : FontConfigDirect)
    (fileid_valid : Bool) (fileid : Nat) (family : String) (is_bold is_italic : Option Bool) :
    Match_select K cat self fileid_valid fileid family is_bold is_italic
        = Except.error MatchReturn.family_too_long ↔
      K.kMaxFontFamilyLength < family.length := by
  unfold Match_select
  by_cases hl : family.length > K.kMaxFontFamilyLength
  · rw [if_pos hl]
    exact ⟨fun _ => hl, fun _ => rfl⟩
  · rw [if_neg hl]
    constructor
    · intro h
      exfalso
      cases hp : Match_pattern K self fileid_valid fileid family is_bold is_italic with
      | none =>
        rw [hp] at h
        cases h
      | some pattern =>
        rw [hp] at h
        simp only [] at h
        cases hs : cat.FcFontSort pattern with
        | none =>
          rw [hs] at h
          cases h
        | some font_set =>
          rw [hs] at h
          simp only [] at h
          cases hf : Match_filter cat.access font_set with
          | none =>
            rw [hf] at h
            cases h
          | some m1 =>
            rw [hf] at h
            cases h
    · intro h
      exact absurd h hl

theorem match_ret_of_error {K : Constants} {cat : Catalog} {self : FontConfigDirect}
    {fileid_valid : Bool} {fileid : Nat} {family : String} {is_bold is_italic : Option Bool}
    {r : MatchReturn} (result_family : Option String) (result_fileid : Option Nat)
    (h : Match_select K cat self fileid_valid fileid family is_bold is_italic
      = Except.error r) :
    FontConfigDirect.Match K cat self result_family result_fileid fileid_valid fileid family
        is_bold is_italic =
      ⟨r, self, result_family, result_fileid, is_bold, is_italic⟩ := by
  unfold FontConfigDirect.Match
  rw [h]

theorem match_ret_of_ok {K : Constants} {cat : Catalog} {self : FontConfigDirect}
    {fileid_valid : Bool} {fileid : Nat} {family : String} {is_bold is_italic : Option Bool}
    {pc : String} {m : FcPattern} (result_family : Option String) (result_fileid : Option Nat)
    (h : Match_select K cat self fileid_valid fileid family is_bold is_italic
      = Except.ok (pc, m)) :
    (FontConfigDirect.Match K cat self result_family result_fileid fileid_valid fileid family
        is_bold is_italic).ret = MatchReturn.unacceptable_substitute ∨
    (FontConfigDirect.Match K cat self result_family result_fileid fileid_valid fileid family
        is_bold is_italic).ret = MatchReturn.no_family ∨
    (FontConfigDirect.Match K cat self result_family result_fileid fileid_valid fileid family
        is_bold is_italic).ret = MatchReturn.ok := by
  obtain ⟨filename, _, he⟩ := match_of_select result_family result_fileid h
  rw [he]
  cases hfb : IsFallbackFontAllowed family <;>
    cases hacc : Match_acceptable_substitute family pc m <;>
    cases hfam : m.family[0]? <;> simp

/-- C13: `Match` returns at the family-too-long `return` exactly when the
length of the requested family is greater than `kMaxFontFamilyLength` (a
family of exactly that length passes); when it does, the result is the same
whatever the engine, the pinned id and the catalog are, and the engine and
the cells behind the pointer arguments are as they were. -/
theorem family_too_long_iff (K : Constants) (cat : Catalog) (self : FontConfigDirect)
    (result_family : Option String) (result_fileid : Option Nat)
    (fileid_valid : Bool) (fileid : Nat) (family : String)
    (is_bold is_italic : Option Bool) :
    ((FontConfigDirect.Match K cat self result_family result_fileid fileid_valid fileid
        family is_bold is_italic).ret = MatchReturn.family_too_long ↔
      K.kMaxFontFamilyLength < family.length) ∧
    (family.length = K.kMaxFontFamilyLength →
      (FontConfigDirect.Match K cat self result_family result_fileid fileid_valid fileid
        family is_bold is_italic).ret ≠ MatchReturn.family_too_long) ∧
    (K.kMaxFontFamilyLength < family.length →
      ∀ (cat1 : Catalog) (self1 : FontConfigDirect) (fileid_valid1 : Bool) (fileid1 : Nat),
        FontConfigDirect.Match K cat1 self1 result_family result_fileid fileid_valid1 fileid1
          family is_bold is_italic =
        ⟨MatchReturn.family_too_long, self1, result_family, result_fileid,
          is_bold, is_italic⟩) := by
  have hall : K.kMaxFontFamilyLength < family.length →
      ∀ (cat1 : Catalog) (self1 : FontConfigDirect) (fileid_valid1 : Bool) (fileid1 : Nat),
        FontConfigDirect.Match K cat1 self1 result_family result_fileid fileid_valid1 fileid1
          family is_bold is_italic =
        ⟨MatchReturn.family_too_long, self1, result_family, result_fileid,
          is_bold, is_italic⟩ := by
    intro hl cat1 self1 fileid_valid1 fileid1
    exact match_ret_of_error result_family result_fileid
      ((match_select_too_long_iff K cat1 self1 fileid_valid1 fileid1 family
        is_bold is_italic).2 hl)
  have hiff : (FontConfigDirect.Match K cat self result_family result_fileid fileid_valid
        fileid family is_bold is_italic).ret = MatchReturn.family_too_long ↔
      K.kMaxFontFamilyLength < family.length := by
    constructor
    · intro h
      cases hsel : Match_select K cat self fileid_valid fileid family is_bold is_italic with
      | error r =>
        rw [match_ret_of_error result_family result_fileid hsel] at h
        simp only [] at h
        rw [h] at hsel
        exact (match_select_too_long_iff K cat self fileid_valid fileid family
          is_bold is_italic).1 hsel
      | ok v =>
        obtain ⟨pc, m⟩ := v
        rcases match_ret_of_ok result_family result_fileid hsel with h1 | h1 | h1 <;>
          rw [h1] at h <;> cases h
    · intro hl
      rw [hall hl cat self fileid_valid fileid]
  refine ⟨hiff, ?_, hall⟩
  intro heq h
  have := hiff.1 h
  omega

/-- C13, at a family of 2049 characters against the limit 2048. -/
theorem family_too_long_iff_witness :
    ∀ (cat1 : Catalog) (self1 : FontConfigDirect) (fileid_valid1 : Bool) (fileid1 : Nat),
      FontConfigDirect.Match stdConstants cat1 self1 none none fileid_valid1 fileid1
        (String.mk (List.replicate 2049 'a')) none none =
      ⟨MatchReturn.family_too_long, self1, none, none, none, none⟩ :=
  (family_too_long_iff stdConstants (oneFont "" (plainFont "/a.ttf" ["Arial"]))
    FontConfigDirect.construct none none false 0 (String.mk (List.replicate 2049 'a'))
    none none).2.2 (by
      show 2048 < (List.replicate 2049 'a').length
      rw [List.length_replicate]
      omega)

/-- C14: when the request carries a pinned file id that is not in
`fileid_to_filename_` and the family is within the length limit, `Match`
returns at the unknown-identifier `return` whatever the catalog is, and the
engine and the cells behind the pointer arguments are as they were. -/
theorem pinned_unknown_fileid (K : Constants) (cat : Catalog) (self : FontConfigDirect)
    (result_family : Option String) (result_fileid : Option Nat)
    (fileid : Nat) (family : String) (is_bold is_italic : Option Bool)
    (hlen : family.length ≤ K.kMaxFontFamilyLength)
    (hid : self.fileid_to_filename_ fileid = none) :
    FontConfigDirect.Match K cat self result_family result_fileid true fileid family
        is_bold is_italic =
      ⟨MatchReturn.unknown_fileid, self, result_family, result_fileid, is_bold, is_italic⟩ ∧
    (FontConfigDirect.Match K cat self result_family result_fileid true fileid family
        is_bold is_italic).ret.toBool = false := by
  have hsel : Match_select K cat self true fileid family is_bold is_italic
      = Except.error MatchReturn.unknown_fileid := by
    unfold Match_select
    rw [if_neg (by omega)]
    have hp : Match_pattern K self true fileid family is_bold is_italic = none := by
      unfold Match_pattern
      simp only [if_true, hid]
    rw [hp]
  rw [match_ret_of_error result_family result_fileid hsel]
  exact ⟨rfl, rfl⟩

/-- C14, at a fresh engine, where no file id is known, and the pinned id 5. -/
theorem pinned_unknown_fileid_witness :
    (FontConfigDirect.Match stdConstants (oneFont "Arial" (plainFont "/a.ttf" ["Arial"]))
      FontConfigDirect.construct none none true 5 "Arial" none none).ret
        = MatchReturn.unknown_fileid :=
  congrArg MatchResult.ret
    (pinned_unknown_fileid stdConstants (oneFont "Arial" (plainFont "/a.ttf" ["Arial"]))
      FontConfigDirect.construct none none 5 "Arial" none none (by decide) rfl).1

theorem match_select_error_cases {K : Constants} {cat : Catalog} {self : FontConfigDirect}
    {fileid_valid : Bool} {fileid : Nat} {family : String} {is_bold is_italic : Option Bool}
    {r : MatchReturn}
    (h : Match_select K cat self fileid_valid fileid family is_bold is_italic
      = Except.error r) :
    r = MatchReturn.family_too_long ∨ r = MatchReturn.unknown_fileid ∨
      r = MatchReturn.no_font_set ∨ r = MatchReturn.no_match := by
  unfold Match_select at h
  by_cases hl : family.length > K.kMaxFontFamilyLength
  · rw [if_pos hl] at h
    cases h
    exact Or.inl rfl
  · rw [if_neg hl] at h
    cases hp : Match_pattern K self fileid_valid fileid family is_bold is_italic with
    | none =>
      rw [hp] at h
      cases h
      exact Or.inr (Or.inl rfl)
    | some pattern =>
      rw [hp] at h
      simp only [] at h
      cases hs : cat.FcFontSort pattern with
      | none =>
        rw [hs] at h
        cases h
        exact Or.inr (Or.inr (Or.inl rfl))
      | some font_set =>
        rw [hs] at h
        simp only [] at h
        cases hf : Match_filter cat.access font_set with
        | none =>
          rw [hf] at h
          cases h
          exact Or.inr (Or.inr (Or.inr rfl))
        | some m1 =>
          rw [hf] at h
          cases h

/-- The shape of a call of `Match` that reaches lines 261-274: the font is
chosen, the substitution check does not reject it, and the result is built
from the file id step. -/
theorem match_reaches_fileid {K : Constants} {cat : Catalog} {self : FontConfigDirect}
    {fileid_valid : Bool} {fileid : Nat} {family : String} {is_bold is_italic : Option Bool}
    (result_family : Option String) (result_fileid : Option Nat)
    (h : (FontConfigDirect.Match K cat self result_family result_fileid fileid_valid fileid
        family is_bold is_italic).ret = MatchReturn.ok ∨
      (FontConfigDirect.Match K cat self result_family result_fileid fileid_valid fileid
        family is_bold is_italic).ret = MatchReturn.no_family) :
    ∃ pc m filename,
      Match_select K cat self fileid_valid fileid family is_bold is_italic
        = Except.ok (pc, m) ∧
      (IsFallbackFontAllowed family = true ∨
        Match_acceptable_substitute family pc m = true) ∧
      m.file = some filename ∧
      (FontConfigDirect.Match K cat self result_family result_fileid fileid_valid fileid
        family is_bold is_italic).self = (Match_fileid self fileid_valid fileid filename).2 ∧
      (FontConfigDirect.Match K cat self result_family result_fileid fileid_valid fileid
        family is_bold is_italic).result_fileid =
        result_fileid.map (fun _ => (Match_fileid self fileid_valid fileid filename).1) := by
  cases hsel : Match_select K cat self fileid_valid fileid family is_bold is_italic with
  | error r =>
    exfalso
    rw [match_ret_of_error result_family result_fileid hsel] at h
    simp only [] at h
    rcases match_select_error_cases hsel with h1 | h1 | h1 | h1 <;>
      rw [h1] at h <;> rcases h with h | h <;> cases h
  | ok v =>
    obtain ⟨pc, m⟩ := v
    obtain ⟨filename, hfile, he⟩ := match_of_select result_family result_fileid hsel
    refine ⟨pc, m, filename, rfl, ?_, hfile, ?_, ?_⟩
    · rw [he] at h
      cases hfb : IsFallbackFontAllowed family
      · cases hacc : Match_acceptable_substitute family pc m
        · exfalso
          rw [hfb, hacc] at h
          simp at h
        · exact Or.inr rfl
      · exact Or.inl rfl
    · rw [he] at h ⊢
      cases hfb : IsFallbackFontAllowed family <;>
        cases hacc : Match_acceptable_substitute family pc m <;>
        cases hfam : m.family[0]? <;> simp [hfb, hacc, hfam] at h ⊢
    · rw [he] at h ⊢
      cases hfb : IsFallbackFontAllowed family <;>
        cases hacc : Match_acceptable_substitute family pc m <;>
        cases hfam : m.family[0]? <;> simp [hfb, hacc, hfam] at h ⊢

/-- C15: a successful `Match` whose request carries a pinned file id gives
back exactly the pinned id and leaves the engine (both maps and the counter)
as it was, whatever the path of the chosen font is. -/
theorem pinned_fileid_verbatim (K : Constants) (cat : Catalog) (self : FontConfigDirect)
    (result_family : Option String) (result_fileid : Option Nat)
    (fileid : Nat) (family : String) (is_bold is_italic : Option Bool)
    (hok : (FontConfigDirect.Match K cat self result_family result_fileid true fileid
      family is_bold is_italic).ret = MatchReturn.ok) :
    (FontConfigDirect.Match K cat self result_family result_fileid true fileid
      family is_bold is_italic).result_fileid = result_fileid.map (fun _ => fileid) ∧
    (FontConfigDirect.Match K cat self result_family result_fileid true fileid
      family is_bold is_italic).self = self := by
  obtain ⟨pc, m, filename, _, _, _, hself, hid⟩ :=
    match_reaches_fileid result_family result_fileid (Or.inl hok)
  rw [hself, hid]
  exact ⟨rfl, rfl⟩

/-- C15, at an engine where id 0 stands for `pathOf 0`, with the pinned id 0
and a catalog that ranks first a font stored elsewhere. -/
theorem pinned_fileid_verbatim_witness :
    (FontConfigDirect.Match stdConstants (oneFont "Arial" (plainFont "/b.ttf" ["Arial"]))
      (runCalls stdConstants FontConfigDirect.construct (freshCalls 1))
      none (some 7) true 0 "Arial" none none).result_fileid = some 0 ∧
    (FontConfigDirect.Match stdConstants (oneFont "Arial" (plainFont "/b.ttf" ["Arial"]))
      (runCalls stdConstants FontConfigDirect.construct (freshCalls 1))
      none (some 7) true 0 "Arial" none none).self =
      runCalls stdConstants FontConfigDirect.construct (freshCalls 1) :=
  pinned_fileid_verbatim stdConstants (oneFont "Arial" (plainFont "/b.ttf" ["Arial"]))
    (runCalls stdConstants FontConfigDirect.construct (freshCalls 1))
    none (some 7) 0 "Arial" none none (by decide)

/-! ## The fallback names, the first admissible font, the query -/

theorem lowered_of_no_nul (l : List Char) (h : ∀ c ∈ l, c.toNat ≠ 0) :
    lowered (String.mk l) = l.map (fun c => tolower c.toNat) := by
  induction l with
  | nil => exact lowered_nil
  | cons c s ih =>
    rw [lowered_cons, if_neg (h c (List.mem_cons_self _ _)),
      ih (fun d hd => h d (List.mem_cons_of_mem _ hd))]
    rfl

theorem eqIgnoreCase_iff_caseVariant (a b : String)
    (ha : ∀ c ∈ a.data, c.toNat ≠ 0) (hb : ∀ c ∈ b.data, c.toNat ≠ 0) :
    EqIgnoreCase a b ↔ CaseVariant a b := by
  unfold EqIgnoreCase CaseVariant
  rw [show lowered a = lowered (String.mk a.data) from rfl,
    show lowered b = lowered (String.mk b.data) from rfl,
    lowered_of_no_nul a.data ha, lowered_of_no_nul b.data hb]

theorem isFallbackFontAllowed_iff_eqIgnoreCase (family : String) :
    IsFallbackFontAllowed family = true ↔
      EqIgnoreCase family "sans" ∨ EqIgnoreCase family "serif" ∨
        EqIgnoreCase family "monospace" ∨ EqIgnoreCase family "NonAntiAliasedSans" := by
  unfold IsFallbackFontAllowed
  simp only [Bool.or_eq_true, decide_eq_true_eq, strcasecmp_eq_zero_iff]
  tauto

theorem lowered_c_str (s : String) : lowered (c_str s) = lowered s := by
  unfold lowered c_str
  simp only [List.takeWhile_idem]

theorem c_str_no_nul (s : String) : ∀ c ∈ (c_str s).data, c.toNat ≠ 0 := by
  intro c hc
  have := List.mem_takeWhile_imp hc
  simpa using this

theorem eqIgnoreCase_iff_c_str (family name : String)
    (hn : ∀ c ∈ name.data, c.toNat ≠ 0) :
    EqIgnoreCase family name ↔ CaseVariant (c_str family) name := by
  rw [← eqIgnoreCase_iff_caseVariant (c_str family) name (c_str_no_nul family) hn]
  unfold EqIgnoreCase
  rw [lowered_c_str]

/-- C18 as stated fails: the family made of "sans", a NUL character and "x"
is none of the four names, whatever the case of its letters, and
`IsFallbackFontAllowed` is `true` for it, since `strcasecmp` reads
`family.c_str()`, which ends at the NUL character. -/
theorem isFallbackFontAllowed_embedded_nul :
    IsFallbackFontAllowed "sans\x00x" = true ∧
    "sans\x00x".length = 6 ∧
    ¬ CaseVariant "sans\x00x" "sans" ∧
    ¬ CaseVariant "sans\x00x" "serif" ∧
    ¬ CaseVariant "sans\x00x" "monospace" ∧
    ¬ CaseVariant "sans\x00x" "NonAntiAliasedSans" := by
  decide

/-- C18, amended: `IsFallbackFontAllowed family` is `true` exactly when
`family.c_str()`, that is `family` up to its first NUL character, equals
"sans", "serif", "monospace" or "NonAntiAliasedSans" up to the case of its
ASCII letters, and `false` for every other string; for a family without a
NUL character this is the whole of `family`. It is `false` for the empty
string and for "sans-serif". -/
theorem isFallbackFontAllowed_spec (family : String) :
    (IsFallbackFontAllowed family = true ↔
      CaseVariant (c_str family) "sans" ∨ CaseVariant (c_str family) "serif" ∨
        CaseVariant (c_str family) "monospace" ∨
        CaseVariant (c_str family) "NonAntiAliasedSans") ∧
    (IsFallbackFontAllowed family = true ↔
      EqIgnoreCase family "sans" ∨ EqIgnoreCase family "serif" ∨
        EqIgnoreCase family "monospace" ∨ EqIgnoreCase family "NonAntiAliasedSans") ∧
    ((∀ c ∈ family.data, c.toNat ≠ 0) →
      (IsFallbackFontAllowed family = true ↔
        CaseVariant family "sans" ∨ CaseVariant family "serif" ∨
          CaseVariant family "monospace" ∨ CaseVariant family "NonAntiAliasedSans")) ∧
    IsFallbackFontAllowed "" = false ∧
    IsFallbackFontAllowed "sans-serif" = false := by
  refine ⟨?_, isFallbackFontAllowed_iff_eqIgnoreCase family, ?_, by decide, by decide⟩
  · rw [isFallbackFontAllowed_iff_eqIgnoreCase,
      eqIgnoreCase_iff_c_str family "sans" (by decide),
      eqIgnoreCase_iff_c_str family "serif" (by decide),
      eqIgnoreCase_iff_c_str family "monospace" (by decide),
      eqIgnoreCase_iff_c_str family "NonAntiAliasedSans" (by decide)]
  · intro h
    rw [isFallbackFontAllowed_iff_eqIgnoreCase,
      eqIgnoreCase_iff_caseVariant family "sans" h (by decide),
      eqIgnoreCase_iff_caseVariant family "serif" h (by decide),
      eqIgnoreCase_iff_caseVariant family "monospace" h (by decide),
      eqIgnoreCase_iff_caseVariant family "NonAntiAliasedSans" h (by decide)]

/-- C18 amended, at "MonoSpace" (allowed), at "Monospaced" (not allowed) and
at "SERIF" followed by a NUL character and "x" (allowed). -/
theorem isFallbackFontAllowed_spec_witness :
    IsFallbackFontAllowed "MonoSpace" = true ∧ IsFallbackFontAllowed "Monospaced" = false ∧
    IsFallbackFontAllowed "SERIF\x00x" = true :=
  ⟨((isFallbackFontAllowed_spec "MonoSpace").2.2.1 (by decide)).2 (by decide), by decide,
    (isFallbackFontAllowed_spec "SERIF\x00x").1.2 (by decide)⟩

/-- C19: for a non-empty requested family that is not fallback-allowed, when
the first scalable and readable font of the sorted set fails the
substitution check, `Match` returns at the unacceptable-substitution
`return`, whatever fonts come after it in the set. -/
theorem first_admissible_only (K : Constants) (cat : Catalog) (self : FontConfigDirect)
    (result_family : Option String) (result_fileid : Option Nat)
    (fileid_valid : Bool) (fileid : Nat) (family : String)
    (is_bold is_italic : Option Bool) (pattern : Query)
    (before : List FcPattern) (m : FcPattern) (after : List FcPattern)
    (_hne : family ≠ "") (hfb : IsFallbackFontAllowed family = false)
    (hlen : family.length ≤ K.kMaxFontFamilyLength)
    (hpat : Match_pattern K self fileid_valid fileid family is_bold is_italic = some pattern)
    (hsort : cat.FcFontSort pattern = some (before ++ m :: after))
    (hbefore : ∀ c ∈ before, ¬ Admissible cat.access c)
    (hm : Admissible cat.access m)
    (hrej : Match_acceptable_substitute family (cat.post_config_family pattern) m = false) :
    (FontConfigDirect.Match K cat self result_family result_fileid fileid_valid fileid
      family is_bold is_italic).ret = MatchReturn.unacceptable_substitute ∧
    (FontConfigDirect.Match K cat self result_family result_fileid fileid_valid fileid
      family is_bold is_italic).ret.toBool = false := by
  have hfil : Match_filter cat.access (before ++ m :: after) = some m :=
    (match_filter_some_iff _ _ _).2 ⟨before, after, rfl, hbefore, hm⟩
  have hsel : Match_select K cat self fileid_valid fileid family is_bold is_italic
      = Except.ok (cat.post_config_family pattern, m) := by
    rw [match_select_eq cat hlen hpat hsort, hfil]
  have hret := (match_ret_unacceptable_iff result_family result_fileid hsel).2 ⟨hfb, hrej⟩
  refine ⟨hret, ?_⟩
  rw [hret]
  rfl

/-- C19, at the request "Monaco" and a font set with an unscalable font, then
"Times New Roman", then a font called "Monaco": the later font would pass
the substitution check, and `Match` fails all the same. -/
theorem first_admissible_only_witness :
    Match_acceptable_substitute "Monaco" "Monaco" (plainFont "/m.ttf" ["Monaco"]) = true ∧
    (FontConfigDirect.Match stdConstants
      (listCatalog "Monaco"
        [⟨some false, some "/b.pcf", ["Monaco"], none, none, false, false⟩,
          plainFont "/t.ttf" ["Times New Roman"], plainFont "/m.ttf" ["Monaco"]])
      FontConfigDirect.construct none none false 0 "Monaco" none none).ret
        = MatchReturn.unacceptable_substitute :=
  ⟨by decide,
    (first_admissible_only stdConstants
      (listCatalog "Monaco"
        [⟨some false, some "/b.pcf", ["Monaco"], none, none, false, false⟩,
          plainFont "/t.ttf" ["Times New Roman"], plainFont "/m.ttf" ["Monaco"]])
      FontConfigDirect.construct none none false 0 "Monaco" none none
      ⟨none, some "Monaco", 80, 0, true⟩
      [⟨some false, some "/b.pcf", ["Monaco"], none, none, false, false⟩]
      (plainFont "/t.ttf" ["Times New Roman"]) [plainFont "/m.ttf" ["Monaco"]]
      (by decide) (by decide) (by decide) rfl rfl (by decide) (by decide) (by decide)).1⟩

/-- C20: the query pattern `Match` hands to the catalog has a file exactly
when a pinned id is given, and it is the path registered under that id; it
has a family exactly when the requested family is not empty, and it is the
requested family; its weight is bold when a bold flag is supplied and true
and normal otherwise; its slant is italic when an italic flag is supplied
and true and roman otherwise; and it always asks for a scalable font. The
result of `Match` depends on the catalog only through what it answers to
this query and through the readability of paths. -/
theorem query_construction (K : Constants) (cat : Catalog) (self : FontConfigDirect)
    (result_family : Option String) (result_fileid : Option Nat)
    (fileid_valid : Bool) (fileid : Nat) (family : String)
    (is_bold is_italic : Option Bool) (q : Query)
    (hq : Match_pattern K self fileid_valid fileid family is_bold is_italic = some q) :
    (q.file ≠ none ↔ fileid_valid = true) ∧
    (fileid_valid = true →
      ∃ filename, self.fileid_to_filename_ fileid = some filename ∧
        q.file = some (c_str filename)) ∧
    (q.family ≠ none ↔ family ≠ "") ∧
    (family ≠ "" → q.family = some (c_str family)) ∧
    (is_bold = some true → q.weight = K.FC_WEIGHT_BOLD) ∧
    (is_bold ≠ some true → q.weight = K.FC_WEIGHT_NORMAL) ∧
    (is_italic = some true → q.slant = K.FC_SLANT_ITALIC) ∧
    (is_italic ≠ some true → q.slant = K.FC_SLANT_ROMAN) ∧
    q.scalable = true ∧
    (∀ cat1 : Catalog,
      cat1.post_config_family q = cat.post_config_family q →
      cat1.FcFontSort q = cat.FcFontSort q →
      cat1.access = cat.access →
      FontConfigDirect.Match K cat1 self result_family result_fileid fileid_valid fileid
          family is_bold is_italic =
        FontConfigDirect.Match K cat self result_family result_fileid fileid_valid fileid
          family is_bold is_italic) := by
  have hshape : ∃ file, (fileid_valid = true → ∃ filename,
        self.fileid_to_filename_ fileid = some filename ∧ file = some (c_str filename)) ∧
      (fileid_valid = false → file = none) ∧
      q = ⟨file, if family = "" then none else some (c_str family),
          if is_bold = some true then K.FC_WEIGHT_BOLD else K.FC_WEIGHT_NORMAL,
          if is_italic = some true then K.FC_SLANT_ITALIC else K.FC_SLANT_ROMAN, true⟩ := by
    unfold Match_pattern at hq
    cases fileid_valid with
    | false =>
      simp only [Bool.false_eq_true, if_false, Option.some.injEq] at hq
      exact ⟨none, fun h => (by cases h), fun _ => rfl, hq.symm⟩
    | true =>
      simp only [if_true] at hq
      cases hf : self.fileid_to_filename_ fileid with
      | none =>
        rw [hf] at hq
        cases hq
      | some filename =>
        rw [hf] at hq
        simp only [Option.some.injEq] at hq
        exact ⟨some (c_str filename), fun _ => ⟨filename, rfl, rfl⟩, fun h => (by cases h),
          hq.symm⟩
  obtain ⟨file, hpin, hunpin, rfl⟩ := hshape
  refine ⟨?_, hpin, ?_, ?_, ?_, ?_, ?_, ?_, rfl, ?_⟩
  · cases fileid_valid with
    | false =>
      simp only [hunpin rfl]
      simp
    | true =>
      obtain ⟨filename, _, hfile⟩ := hpin rfl
      simp only [hfile]
      simp
  · by_cases h : family = "" <;> simp [h]
  · intro h
    simp [h]
  · intro h
    simp [h]
  · intro h
    simp [h]
  · intro h
    simp [h]
  · intro h
    simp [h]
  · intro cat1 h1 h2 h3
    have hs : Match_select K cat1 self fileid_valid fileid family is_bold is_italic =
        Match_select K cat self fileid_valid fileid family is_bold is_italic := by
      unfold Match_select
      by_cases hl : family.length > K.kMaxFontFamilyLength
      · rw [if_pos hl, if_pos hl]
      · rw [if_neg hl, if_neg hl, hq]
        simp only [h1, h2, h3]
    unfold FontConfigDirect.Match
    rw [hs]

/-- C20, at a request for "Arial" in bold with no italic flag and no pinned id. -/
theorem query_construction_witness :
    Match_pattern stdConstants FontConfigDirect.construct false 0 "Arial" (some true) none
      = some ⟨none, some "Arial", 200, 0, true⟩ ∧
    (⟨none, some "Arial", 200, 0, true⟩ : Query).weight = stdConstants.FC_WEIGHT_BOLD :=
  ⟨by decide,
    (query_construction stdConstants (oneFont "Arial" (plainFont "/a.ttf" ["Arial"]))
      FontConfigDirect.construct none none false 0 "Arial" (some true) none
      ⟨none, some "Arial", 200, 0, true⟩ (by decide)).2.2.2.2.1 rfl⟩

/-! ## The file id step -/

theorem match_fileid_pinned (self : FontConfigDirect) (fileid : Nat) (filename : String) :
    Match_fileid self true fileid filename = (fileid, self) := rfl

theorem match_fileid_found {self : FontConfigDirect} (fileid : Nat) {filename : String}
    {i : Nat} (h : self.filename_to_fileid_ filename = some i) :
    Match_fileid self false fileid filename = (i, self) := by
  unfold Match_fileid
  simp only [Bool.false_eq_true, if_false, h]

theorem match_fileid_new {self : FontConfigDirect} (fileid : Nat) {filename : String}
    (h : self.filename_to_fileid_ filename = none) :
    Match_fileid self false fileid filename =
      (self.next_file_id_, Match_register self filename) := by
  unfold Match_fileid Match_register
  simp only [Bool.false_eq_true, if_false, h]

/-- After the file id step of an unpinned call, the path stands in
`filename_to_fileid_` under the id given out. -/
theorem match_fileid_registered (self : FontConfigDirect) (fileid : Nat) (filename : String) :
    (Match_fileid self false fileid filename).2.filename_to_fileid_ filename =
      some (Match_fileid self false fileid filename).1 := by
  cases h : self.filename_to_fileid_ filename with
  | none =>
    rw [match_fileid_new fileid h]
    simp [Match_register]
  | some i =>
    rw [match_fileid_found fileid h]
    exact h

theorem matchCall_of_select {K : Constants} {c : MatchCall} {self : FontConfigDirect}
    {pc : String} {m : FcPattern} {filename : String}
    (hsel : c.select K self = Except.ok (pc, m)) (hfile : m.file = some filename) :
    ((IsFallbackFontAllowed c.family = false ∧
        Match_acceptable_substitute c.family pc m = false) →
      (c.run K self).self = self ∧ Match_out_fileid K c self = none) ∧
    ((IsFallbackFontAllowed c.family = true ∨
        Match_acceptable_substitute c.family pc m = true) →
      (c.run K self).self = (Match_fileid self c.fileid_valid c.fileid filename).2 ∧
      (c.run K self).result_fileid = c.result_fileid.map
        (fun _ => (Match_fileid self c.fileid_valid c.fileid filename).1) ∧
      Match_out_fileid K c self =
        some (Match_fileid self c.fileid_valid c.fileid filename).1) := by
  obtain ⟨filename1, hfile1, he⟩ := match_of_select c.result_family c.result_fileid hsel
  rw [hfile] at hfile1
  cases hfile1
  unfold MatchCall.run Match_out_fileid
  rw [he, hsel]
  simp only [hfile]
  cases hfb : IsFallbackFontAllowed c.family <;>
    cases hacc : Match_acceptable_substitute c.family pc m <;>
    cases hfam : m.family[0]? <;> simp

theorem matchCall_of_error {K : Constants} {c : MatchCall} {self : FontConfigDirect}
    {r : MatchReturn} (hsel : c.select K self = Except.error r) :
    (c.run K self).self = self ∧ Match_out_fileid K c self = none := by
  unfold MatchCall.run Match_out_fileid
  rw [match_ret_of_error c.result_family c.result_fileid hsel, hsel]
  exact ⟨rfl, rfl⟩

/-- A call of `Match` that discovers a new path registers it under the
current counter value and gives that value out. -/
theorem matchCall_discovers {K : Constants} {c : MatchCall} {self : FontConfigDirect}
    {filename : String} (h : Discovers K c self filename) :
    (c.run K self).self = Match_register self filename ∧
    (c.run K self).result_fileid = c.result_fileid.map (fun _ => self.next_file_id_) ∧
    Match_out_fileid K c self = some self.next_file_id_ := by
  obtain ⟨hu, pc, m, hsel, hacc, hfile, hnew⟩ := h
  have h1 := (matchCall_of_select hsel hfile).2 hacc
  rw [hu, match_fileid_new c.fileid hnew] at h1
  exact h1

/-- A call of `Match` that discovers no new path leaves the engine as it was. -/
theorem matchCall_no_discovery {K : Constants} {c : MatchCall} {self : FontConfigDirect}
    (h : ¬ ∃ filename, Discovers K c self filename) :
    (c.run K self).self = self := by
  cases hsel : c.select K self with
  | error r => exact (matchCall_of_error hsel).1
  | ok v =>
    obtain ⟨pc, m⟩ := v
    obtain ⟨_, filename, hfile, _⟩ :=
      match_select_admissible (show Match_select K c.cat self c.fileid_valid c.fileid c.family
        c.is_bold c.is_italic = Except.ok (pc, m) from hsel)
    by_cases hacc : IsFallbackFontAllowed c.family = true ∨
        Match_acceptable_substitute c.family pc m = true
    · rw [((matchCall_of_select hsel hfile).2 hacc).1]
      cases hv : c.fileid_valid with
      | true => rfl
      | false =>
        cases hf : self.filename_to_fileid_ filename with
        | none => exact absurd ⟨filename, hv, pc, m, hsel, hacc, hfile, hf⟩ h
        | some i => rw [match_fileid_found c.fileid hf]
    · have hrej : IsFallbackFontAllowed c.family = false ∧
          Match_acceptable_substitute c.family pc m = false := by
        cases hfb : IsFallbackFontAllowed c.family <;>
          cases hs : Match_acceptable_substitute c.family pc m <;> simp_all
      exact ((matchCall_of_select hsel hfile).1 hrej).1

theorem matchCall_self_cases (K : Constants) (c : MatchCall) (self : FontConfigDirect) :
    (c.run K self).self = self ∨
    ∃ filename, Discovers K c self filename ∧
      (c.run K self).self = Match_register self filename := by
  by_cases h : ∃ filename, Discovers K c self filename
  · obtain ⟨filename, hd⟩ := h
    exact Or.inr ⟨filename, hd, (matchCall_discovers hd).1⟩
  · exact Or.inl (matchCall_no_discovery h)

theorem step_cases (K : Constants) (self : FontConfigDirect) (x : Call) :
    step K self x = self ∨
    ∃ c filename, x = Call.doMatch c ∧ Discovers K c self filename ∧
      step K self x = Match_register self filename := by
  cases x with
  | doOpen cat fileid => exact Or.inl rfl
  | doMatch c =>
    rcases matchCall_self_cases K c self with h | ⟨filename, hd, h⟩
    · exact Or.inl h
    · exact Or.inr ⟨c, filename, rfl, hd, h⟩

theorem step_doMatch (K : Constants) (self : FontConfigDirect) (c : MatchCall) :
    step K self (Call.doMatch c) = (c.run K self).self := rfl

theorem runCalls_append (K : Constants) (self : FontConfigDirect) (l1 l2 : List Call) :
    runCalls K self (l1 ++ l2) = runCalls K (runCalls K self l1) l2 := by
  unfold runCalls
  exact List.foldl_append _ _ _ _

theorem runCalls_snoc (K : Constants) (self : FontConfigDirect) (l : List Call) (x : Call) :
    runCalls K self (l ++ [x]) = step K (runCalls K self l) x := by
  rw [runCalls_append]
  rfl

theorem runCalls_cons (K : Constants) (self : FontConfigDirect) (x : Call) (l : List Call) :
    runCalls K self (x :: l) = runCalls K (step K self x) l := rfl

/-! ## Invariants of the registry -/

/-- An entry of `filename_to_fileid_` is never changed by a call. -/
theorem step_filename_to_fileid (K : Constants) (self : FontConfigDirect) (x : Call)
    (p : String) (i : Nat) (h : self.filename_to_fileid_ p = some i) :
    (step K self x).filename_to_fileid_ p = some i := by
  rcases step_cases K self x with he | ⟨c, filename, _, hd, he⟩
  · rw [he]
    exact h
  · rw [he]
    have hne : p ≠ filename := by
      rintro rfl
      rw [hd.2.choose_spec.choose_spec.2.2.2] at h
      cases h
    simp only [Match_register, if_neg hne]
    exact h

theorem runCalls_filename_to_fileid (K : Constants) (calls : List Call)
    (self : FontConfigDirect) (p : String) (i : Nat)
    (h : self.filename_to_fileid_ p = some i) :
    (runCalls K self calls).filename_to_fileid_ p = some i := by
  induction calls generalizing self with
  | nil => exact h
  | cons x l ih =>
    rw [runCalls_cons]
    exact ih _ (step_filename_to_fileid K self x p i h)

theorem consistent_construct : Consistent FontConfigDirect.construct := by
  constructor
  · intro p i
    constructor <;> intro h <;> cases h
  · intro i
    constructor
    · rintro ⟨p, h⟩
      cases h
    · intro h
      exact absurd h (Nat.not_lt_zero _)

/-- Registering a new path keeps the two maps in step as long as the counter
does not wrap. -/
theorem consistent_register {self : FontConfigDirect} {filename : String}
    (hc : Consistent self) (hnew : self.filename_to_fileid_ filename = none)
    (hlt : self.next_file_id_ + 1 < 2 ^ 32) :
    Consistent (Match_register self filename) ∧
    (Match_register self filename).next_file_id_ = self.next_file_id_ + 1 := by
  obtain ⟨h1, h2⟩ := hc
  have hnext : (Match_register self filename).next_file_id_ = self.next_file_id_ + 1 := by
    simp only [Match_register]
    exact Nat.mod_eq_of_lt hlt
  refine ⟨⟨?_, ?_⟩, hnext⟩
  · intro p i
    simp only [Match_register]
    by_cases hp : p = filename
    · subst hp
      rw [if_pos rfl]
      by_cases hi : i = self.next_file_id_
      · subst hi
        rw [if_pos rfl]
        exact ⟨fun _ => rfl, fun _ => rfl⟩
      · rw [if_neg hi]
        constructor
        · intro h
          exact absurd (Option.some.inj h).symm hi
        · intro h
          rw [(h1 p i).2 h] at hnew
          cases hnew
    · rw [if_neg hp]
      by_cases hi : i = self.next_file_id_
      · subst hi
        rw [if_pos rfl]
        constructor
        · intro h
          have := (h2 self.next_file_id_).1 ⟨p, (h1 p _).1 h⟩
          omega
        · intro h
          exact absurd (Option.some.inj h).symm hp
      · rw [if_neg hi]
        exact h1 p i
  · intro i
    rw [hnext]
    simp only [Match_register]
    by_cases hi : i = self.next_file_id_
    · subst hi
      rw [if_pos rfl]
      exact ⟨fun _ => by omega, fun _ => ⟨filename, rfl⟩⟩
    · rw [if_neg hi, h2 i]
      omega

theorem consistent_step (K : Constants) (self : FontConfigDirect) (x : Call) (n : Nat)
    (hc : Consistent self) (hn : self.next_file_id_ ≤ n) (hlt : n + 1 < 2 ^ 32) :
    Consistent (step K self x) ∧ (step K self x).next_file_id_ ≤ n + 1 := by
  rcases step_cases K self x with he | ⟨c, filename, _, hd, he⟩
  · rw [he]
    exact ⟨hc, by omega⟩
  · rw [he]
    have hnew : self.filename_to_fileid_ filename = none :=
      hd.2.choose_spec.choose_spec.2.2.2
    obtain ⟨h1, h2⟩ := consistent_register hc hnew (by omega)
    exact ⟨h1, by omega⟩

theorem consistent_runCalls (K : Constants) (calls : List Call)
    (hlen : calls.length < 2 ^ 32) :
    Consistent (runCalls K FontConfigDirect.construct calls) ∧
    (runCalls K FontConfigDirect.construct calls).next_file_id_ ≤ calls.length := by
  induction calls using List.reverseRecOn with
  | nil => exact ⟨consistent_construct, Nat.le_refl _⟩
  | append_singleton l x ih =>
    rw [List.length_append, List.length_singleton] at hlen
    obtain ⟨hc, hn⟩ := ih (by omega)
    rw [runCalls_snoc, List.length_append, List.length_singleton]
    exact consistent_step K _ x l.length hc hn hlen

/-- An id that enters `fileid_to_filename_` in a call is the `out_fileid` of
that call. -/
theorem step_fileid_to_filename (K : Constants) (self : FontConfigDirect) (x : Call)
    (id : Nat) (h : (step K self x).fileid_to_filename_ id ≠ none) :
    self.fileid_to_filename_ id ≠ none ∨
    ∃ c, x = Call.doMatch c ∧ Match_out_fileid K c self = some id := by
  rcases step_cases K self x with he | ⟨c, filename, hx, hd, he⟩
  · rw [he] at h
    exact Or.inl h
  · rw [he] at h
    simp only [Match_register] at h
    by_cases hi : id = self.next_file_id_
    · right
      exact ⟨c, hx, by rw [hi]; exact (matchCall_discovers hd).2.2⟩
    · rw [if_neg hi] at h
      exact Or.inl h

/-! ## A long run of calls that discover new paths -/

theorem digitChar_toNat (d : Nat) (h : d < 10) : (digitChar d).toNat = 48 + d := by
  unfold digitChar
  interval_cases d <;> rfl

theorem pathOf_injective {i j : Nat} (h : pathOf i = pathOf j) : i = j := by
  unfold pathOf at h
  have h1 : (Nat.digits 10 i).map digitChar = (Nat.digits 10 j).map digitChar :=
    (List.cons.inj (List.cons.inj (congrArg String.data h)).2).2
  have hback : ∀ n : Nat,
      ((Nat.digits 10 n).map digitChar).map (fun c => c.toNat - 48) = Nat.digits 10 n := by
    intro n
    rw [List.map_map]
    have : ∀ d ∈ Nat.digits 10 n, ((fun c : Char => c.toNat - 48) ∘ digitChar) d = d := by
      intro d hd
      have hlt : d < 10 := Nat.digits_lt_base (by omega) hd
      simp only [Function.comp, digitChar_toNat d hlt]
      omega
    rw [List.map_congr_left this, List.map_id']
  have h2 := congrArg (List.map (fun c : Char => c.toNat - 48)) h1
  rw [hback i, hback j] at h2
  exact Nat.digits_inj_iff.1 h2

theorem freshMatch_select (K : Constants) (self : FontConfigDirect) (i : Nat) :
    (freshMatch i).select K self = Except.ok ("", plainFont (pathOf i) ["Sans"]) := by
  have hlen : ¬ ("".length > K.kMaxFontFamilyLength) := by
    show ¬ (0 > K.kMaxFontFamilyLength)
    omega
  unfold MatchCall.select freshMatch Match_select
  rw [if_neg hlen]
  rfl

theorem freshMatch_discovers (K : Constants) (self : FontConfigDirect) (i : Nat)
    (hnew : self.filename_to_fileid_ (pathOf i) = none) :
    Discovers K (freshMatch i) self (pathOf i) := by
  refine ⟨rfl, "", plainFont (pathOf i) ["Sans"], freshMatch_select K self i, Or.inr ?_,
    rfl, hnew⟩
  exact (acceptable_substitute_iff _ _ _).2
    ⟨0, by omega, "Sans", rfl, match_acceptable_empty _ _⟩

theorem freshMatch_ok (K : Constants) (self : FontConfigDirect) (i : Nat) :
    ((freshMatch i).run K self).ret = MatchReturn.ok := by
  have hsel : Match_select K (freshMatch i).cat self (freshMatch i).fileid_valid
      (freshMatch i).fileid (freshMatch i).family (freshMatch i).is_bold
      (freshMatch i).is_italic = Except.ok ("", plainFont (pathOf i) ["Sans"]) :=
    freshMatch_select K self i
  refine (match_ret_ok_iff _ _ hsel).2 ⟨Or.inr ?_, ?_⟩
  · exact (acceptable_substitute_iff _ _ _).2
      ⟨0, by omega, "Sans", rfl, match_acceptable_empty _ _⟩
  · intro h
    cases h

theorem freshCalls_succ (n : Nat) :
    freshCalls (n + 1) = freshCalls n ++ [Call.doMatch (freshMatch n)] := by
  unfold freshCalls
  rw [List.range_succ, List.map_append]
  rfl

/-- The engine after the first `n` fresh calls, for `n` up to `2 ^ 32`: the
counter is `n` reduced modulo `2 ^ 32`, and the paths registered are exactly
`pathOf 0`, ..., `pathOf (n - 1)`, each under its own number. -/
theorem freshCalls_run (K : Constants) (n : Nat) (hn : n ≤ 2 ^ 32) :
    (runCalls K FontConfigDirect.construct (freshCalls n)).next_file_id_ = n % 2 ^ 32 ∧
    (∀ p i, (runCalls K FontConfigDirect.construct (freshCalls n)).filename_to_fileid_ p
        = some i → i < n ∧ p = pathOf i) ∧
    (∀ i, i < n →
      (runCalls K FontConfigDirect.construct (freshCalls n)).filename_to_fileid_ (pathOf i)
        = some i) ∧
    (∀ i, i < n →
      (runCalls K FontConfigDirect.construct (freshCalls n)).fileid_to_filename_ i
        = some (pathOf i)) := by
  induction n with
  | zero =>
    refine ⟨rfl, ?_, ?_, ?_⟩
    · intro p i h
      cases h
    · intro i hi
      omega
    · intro i hi
      omega
  | succ n ih =>
    obtain ⟨h1, h2, h3, h4⟩ := ih (by omega)
    have hnew : (runCalls K FontConfigDirect.construct (freshCalls n)).filename_to_fileid_
        (pathOf n) = none := by
      cases hv : (runCalls K FontConfigDirect.construct (freshCalls n)).filename_to_fileid_
          (pathOf n) with
      | none => rfl
      | some i =>
        exfalso
        obtain ⟨hi, he⟩ := h2 _ _ hv
        have := pathOf_injective he
        omega
    have hstep : runCalls K FontConfigDirect.construct (freshCalls (n + 1)) =
        Match_register (runCalls K FontConfigDirect.construct (freshCalls n)) (pathOf n) := by
      rw [freshCalls_succ, runCalls_snoc]
      exact (matchCall_discovers (freshMatch_discovers K _ n hnew)).1
    have hmod : n % 2 ^ 32 = n := Nat.mod_eq_of_lt (by omega)
    rw [hstep]
    refine ⟨?_, ?_, ?_, ?_⟩
    · simp only [Match_register, h1, hmod]
    · intro p i h
      simp only [Match_register, h1, hmod] at h
      by_cases hp : p = pathOf n
      · rw [if_pos hp] at h
        cases h
        exact ⟨by omega, hp⟩
      · rw [if_neg hp] at h
        obtain ⟨hi, he⟩ := h2 p i h
        exact ⟨by omega, he⟩
    · intro i hi
      simp only [Match_register, h1, hmod]
      by_cases hp : pathOf i = pathOf n
      · rw [if_pos hp, pathOf_injective hp]
      · rw [if_neg hp]
        have hne : i ≠ n := fun h => hp (by rw [h])
        exact h3 i (by omega)
    · intro i hi
      simp only [Match_register, h1, hmod]
      by_cases hp : i = n
      · rw [if_pos hp, hp]
      · rw [if_neg hp]
        exact h4 i (by omega)

/-! ## File ids over a sequence of calls -/

theorem matchCall_ok_fileid {K : Constants} {c : MatchCall} {self : FontConfigDirect}
    {pc : String} {m : FcPattern} {filename : String} {id : Nat}
    (hsel : c.select K self = Except.ok (pc, m)) (hfile : m.file = some filename)
    (hok : (c.run K self).ret = MatchReturn.ok)
    (hid : (c.run K self).result_fileid = some id) :
    (c.run K self).self = (Match_fileid self c.fileid_valid c.fileid filename).2 ∧
    id = (Match_fileid self c.fileid_valid c.fileid filename).1 := by
  have hsel1 : Match_select K c.cat self c.fileid_valid c.fileid c.family c.is_bold
      c.is_italic = Except.ok (pc, m) := hsel
  have hacc := ((match_ret_ok_iff c.result_family c.result_fileid hsel1).1 hok).1
  obtain ⟨h1, h2, _⟩ := (matchCall_of_select hsel hfile).2 hacc
  refine ⟨h1, ?_⟩
  rw [h2] at hid
  obtain ⟨_, _, h3⟩ := Option.map_eq_some'.1 hid
  exact h3.symm

/-- C11, amended: of two successful unpinned calls of `Match` in one
sequence of calls on a fresh engine, the later one returns the same file id
as the earlier one when the two chosen fonts have the same path; and when
the paths differ the ids differ, provided the sequence up to the later call
has at most `2 ^ 32` calls. -/
theorem fileid_assignment (K : Constants) (calls1 calls2 : List Call) (a b : MatchCall)
    (pca pcb : String) (ma mb : FcPattern) (pa pb : String) (ida idb : Nat)
    (hau : a.fileid_valid = false) (hbu : b.fileid_valid = false)
    (hsa : a.select K (runCalls K FontConfigDirect.construct calls1) = Except.ok (pca, ma))
    (hpa : ma.file = some pa)
    (hoka : (a.run K (runCalls K FontConfigDirect.construct calls1)).ret = MatchReturn.ok)
    (hida : (a.run K (runCalls K FontConfigDirect.construct calls1)).result_fileid
      = some ida)
    (hsb : b.select K (runCalls K FontConfigDirect.construct
      (calls1 ++ Call.doMatch a :: calls2)) = Except.ok (pcb, mb))
    (hpb : mb.file = some pb)
    (hokb : (b.run K (runCalls K FontConfigDirect.construct
      (calls1 ++ Call.doMatch a :: calls2))).ret = MatchReturn.ok)
    (hidb : (b.run K (runCalls K FontConfigDirect.construct
      (calls1 ++ Call.doMatch a :: calls2))).result_fileid = some idb) :
    (pa = pb → ida = idb) ∧
    (calls1.length + calls2.length + 2 ≤ 2 ^ 32 → pa ≠ pb → ida ≠ idb) := by
  obtain ⟨hselfa, hia⟩ := matchCall_ok_fileid hsa hpa hoka hida
  obtain ⟨_, hib⟩ := matchCall_ok_fileid hsb hpb hokb hidb
  rw [hau] at hselfa hia
  rw [hbu] at hib
  have hrun : runCalls K FontConfigDirect.construct (calls1 ++ Call.doMatch a :: calls2) =
      runCalls K (a.run K (runCalls K FontConfigDirect.construct calls1)).self calls2 := by
    rw [runCalls_append]
    rfl
  have hreg : (runCalls K FontConfigDirect.construct
      (calls1 ++ Call.doMatch a :: calls2)).filename_to_fileid_ pa = some ida := by
    rw [hrun]
    apply runCalls_filename_to_fileid
    rw [hselfa, hia]
    exact match_fileid_registered _ _ _
  constructor
  · intro hp
    rw [hp] at hreg
    rw [hib, match_fileid_found b.fileid hreg]
  · intro hlen hp
    have hl : (calls1 ++ Call.doMatch a :: calls2).length < 2 ^ 32 := by
      rw [List.length_append, List.length_cons]
      omega
    obtain ⟨⟨hc1, hc2⟩, _⟩ := consistent_runCalls K _ hl
    cases hf : (runCalls K FontConfigDirect.construct
        (calls1 ++ Call.doMatch a :: calls2)).filename_to_fileid_ pb with
    | none =>
      rw [hib, match_fileid_new b.fileid hf]
      have := (hc2 ida).1 ⟨pa, (hc1 pa ida).1 hreg⟩
      simp only []
      omega
    | some i =>
      rw [hib, match_fileid_found b.fileid hf]
      simp only []
      intro he
      rw [← he] at hf
      have h1 := (hc1 pa ida).1 hreg
      have h2 := (hc1 pb ida).1 hf
      rw [h1] at h2
      exact hp (Option.some.inj h2)

/-- C11 amended, at a request for "Arial" followed by a request for "Times":
the paths differ and the ids are 0 and 1. -/
theorem fileid_assignment_witness :
    (arialCall.run stdConstants FontConfigDirect.construct).result_fileid = some 0 ∧
    (timesCall.run stdConstants
      (runCalls stdConstants FontConfigDirect.construct [Call.doMatch arialCall])).result_fileid
        = some 1 ∧
    (0 : Nat) ≠ 1 :=
  ⟨by decide, by decide,
    (fileid_assignment stdConstants [] [] arialCall timesCall "Arial" "Times"
      (plainFont "/a.ttf" ["Arial"]) (plainFont "/t.ttf" ["Times"]) "/a.ttf" "/t.ttf" 0 1
      rfl rfl rfl rfl (by decide) (by decide) rfl rfl (by decide) (by decide)).2
      (by decide) (by decide)⟩

/-- C11 as stated fails: in the sequence of `2 ^ 32 + 1` unpinned calls
`freshMatch 0`, ..., `freshMatch (2 ^ 32)`, all successful, the first call
returns the id 0 for `pathOf 0` and the last call returns the id 0 again for
the different path `pathOf (2 ^ 32)`: the counter has wrapped. -/
theorem fileid_reused_after_wrap :
    (freshMatch 0).select stdConstants FontConfigDirect.construct
      = Except.ok ("", plainFont (pathOf 0) ["Sans"]) ∧
    ((freshMatch 0).run stdConstants FontConfigDirect.construct).ret = MatchReturn.ok ∧
    ((freshMatch 0).run stdConstants FontConfigDirect.construct).result_fileid = some 0 ∧
    (freshMatch (2 ^ 32)).select stdConstants
      (runCalls stdConstants FontConfigDirect.construct (freshCalls (2 ^ 32)))
      = Except.ok ("", plainFont (pathOf (2 ^ 32)) ["Sans"]) ∧
    ((freshMatch (2 ^ 32)).run stdConstants
      (runCalls stdConstants FontConfigDirect.construct (freshCalls (2 ^ 32)))).ret
      = MatchReturn.ok ∧
    ((freshMatch (2 ^ 32)).run stdConstants
      (runCalls stdConstants FontConfigDirect.construct (freshCalls (2 ^ 32)))).result_fileid
      = some 0 ∧
    pathOf 0 ≠ pathOf (2 ^ 32) := by
  obtain ⟨h1, h2, _, _⟩ := freshCalls_run stdConstants (2 ^ 32) (Nat.le_refl _)
  have hnew : (runCalls stdConstants FontConfigDirect.construct
      (freshCalls (2 ^ 32))).filename_to_fileid_ (pathOf (2 ^ 32)) = none := by
    cases hv : (runCalls stdConstants FontConfigDirect.construct
        (freshCalls (2 ^ 32))).filename_to_fileid_ (pathOf (2 ^ 32)) with
    | none => rfl
    | some i =>
      exfalso
      obtain ⟨hi, he⟩ := h2 _ _ hv
      have := pathOf_injective he
      omega
  have hlast := (matchCall_discovers (freshMatch_discovers stdConstants _ (2 ^ 32) hnew)).2.1
  have hfirst := (matchCall_discovers
    (freshMatch_discovers stdConstants FontConfigDirect.construct 0 rfl)).2.1
  refine ⟨freshMatch_select _ _ _, freshMatch_ok _ _ _, hfirst, freshMatch_select _ _ _,
    freshMatch_ok _ _ _, ?_, ?_⟩
  · rw [hlast, h1, Nat.mod_self]
    rfl
  · intro h
    have := pathOf_injective h
    omega

/-- C12 fails on the code at the request `namelessCall` on a fresh engine
followed by `Open 0`: the call of `Match` returns `false` (the chosen font
has no family name) after it has registered the path of the font, so that
with no successful `Match` so far `Open 0` finds the id 0 and opens the file
"/x.ttf" instead of returning -1. -/
theorem open_after_failed_match :
    (namelessCall.run stdConstants FontConfigDirect.construct).ret = MatchReturn.no_family ∧
    (namelessCall.run stdConstants FontConfigDirect.construct).ret.toBool = false ∧
    (runCalls stdConstants FontConfigDirect.construct
      [Call.doMatch namelessCall]).fileid_to_filename_ 0 = some "/x.ttf" ∧
    FontConfigDirect.Open namelessCall.cat
      (runCalls stdConstants FontConfigDirect.construct [Call.doMatch namelessCall]) 0 = 3 := by
  decide

/-- After any sequence of `Match` and `Open` calls on a fresh engine,
`Open id` returns -1, whatever the file system is, for every id that no
call of `Match` in the sequence had as its `out_fileid` at the file id step
(lines 261-274): ids become known at that step only. -/
theorem open_unknown_fileid (K : Constants) (calls : List Call) (id : Nat)
    (h : ∀ calls1 c calls2, calls = calls1 ++ Call.doMatch c :: calls2 →
      Match_out_fileid K c (runCalls K FontConfigDirect.construct calls1) ≠ some id) :
    (runCalls K FontConfigDirect.construct calls).fileid_to_filename_ id = none ∧
    ∀ cat : Catalog,
      FontConfigDirect.Open cat (runCalls K FontConfigDirect.construct calls) id = -1 := by
  have hnone : (runCalls K FontConfigDirect.construct calls).fileid_to_filename_ id = none := by
    induction calls using List.reverseRecOn with
    | nil => rfl
    | append_singleton l x ih =>
      have hl := ih (fun calls1 c calls2 he =>
        h calls1 c (calls2 ++ [x]) (by rw [he, List.append_assoc, List.cons_append]))
      rw [runCalls_snoc]
      cases hv : (step K (runCalls K FontConfigDirect.construct l) x).fileid_to_filename_ id with
      | none => rfl
      | some p =>
        exfalso
        have hne : (step K (runCalls K FontConfigDirect.construct l) x).fileid_to_filename_ id
            ≠ none := by
          rw [hv]
          exact fun h0 => by cases h0
        rcases step_fileid_to_filename K _ x id hne with h1 | ⟨c, hx, hout⟩
        · exact h1 hl
        · exact h l c [] (by rw [hx]) hout
  refine ⟨hnone, ?_⟩
  intro cat
  unfold FontConfigDirect.Open
  rw [hnone]

/-- After an `Open` and a request for "Arial", which has the file id 0,
`Open 1` returns -1. -/
theorem open_unknown_fileid_witness :
    FontConfigDirect.Open arialCall.cat
      (runCalls stdConstants FontConfigDirect.construct
        [Call.doOpen arialCall.cat 3, Call.doMatch arialCall]) 1 = -1 :=
  (open_unknown_fileid stdConstants [Call.doOpen arialCall.cat 3, Call.doMatch arialCall] 1
    (by
      intro calls1 c calls2 he
      cases calls1 with
      | nil => cases he
      | cons x calls1 =>
        cases calls1 with
        | nil =>
          cases he
          decide
        | cons y calls1 =>
          cases calls1 with
          | nil => cases he
          | cons z calls1 => cases he)).2 arialCall.cat

/-- C16 as stated fails: after the `2 ^ 32` calls `freshMatch 0`, ...,
`freshMatch (2 ^ 32 - 1)` the id 0 is in use, for `pathOf 0`, and the
counter is 0 again, so the ids in use are not the numbers below the
counter. -/
theorem registry_inconsistent_after_wrap :
    (runCalls stdConstants FontConfigDirect.construct
      (freshCalls (2 ^ 32))).fileid_to_filename_ 0 = some (pathOf 0) ∧
    (runCalls stdConstants FontConfigDirect.construct (freshCalls (2 ^ 32))).next_file_id_
      = 0 ∧
    ¬ Consistent (runCalls stdConstants FontConfigDirect.construct (freshCalls (2 ^ 32))) := by
  obtain ⟨h1, _, _, h4⟩ := freshCalls_run stdConstants (2 ^ 32) (Nat.le_refl _)
  rw [Nat.mod_self] at h1
  have h0 := h4 0 (by omega)
  refine ⟨h0, h1, ?_⟩
  rintro ⟨_, hc2⟩
  have := (hc2 0).1 ⟨_, h0⟩
  omega

/-- C16, amended: after any sequence of fewer than `2 ^ 32` calls of `Match`
and `Open` on a fresh engine, the two maps hold the same pairs, each map is
one-to-one, and the ids in use are exactly the numbers below the counter. -/
theorem registry_consistent (K : Constants) (calls : List Call)
    (hlen : calls.length < 2 ^ 32) :
    (∀ p i, (runCalls K FontConfigDirect.construct calls).filename_to_fileid_ p = some i ↔
      (runCalls K FontConfigDirect.construct calls).fileid_to_filename_ i = some p) ∧
    (∀ p q i, (runCalls K FontConfigDirect.construct calls).filename_to_fileid_ p = some i →
      (runCalls K FontConfigDirect.construct calls).filename_to_fileid_ q = some i → p = q) ∧
    (∀ i j p, (runCalls K FontConfigDirect.construct calls).fileid_to_filename_ i = some p →
      (runCalls K FontConfigDirect.construct calls).fileid_to_filename_ j = some p → i = j) ∧
    (∀ i, (∃ p, (runCalls K FontConfigDirect.construct calls).fileid_to_filename_ i = some p) ↔
      i < (runCalls K FontConfigDirect.construct calls).next_file_id_) := by
  obtain ⟨⟨hc1, hc2⟩, _⟩ := consistent_runCalls K calls hlen
  refine ⟨hc1, ?_, ?_, hc2⟩
  · intro p q i hp hq
    have h1 := (hc1 p i).1 hp
    rw [(hc1 q i).1 hq] at h1
    exact (Option.some.inj h1).symm
  · intro i j p hi hj
    have h1 := (hc1 p i).2 hi
    rw [(hc1 p j).2 hj] at h1
    exact (Option.some.inj h1).symm

/-- C16 amended, after a request for "Arial" and a request for "Times": the
ids in use are 0 and 1 and the counter is 2. -/
theorem registry_consistent_witness :
    (runCalls stdConstants FontConfigDirect.construct
      [Call.doMatch arialCall, Call.doMatch timesCall]).next_file_id_ = 2 ∧
    ∀ i, (∃ p, (runCalls stdConstants FontConfigDirect.construct
        [Call.doMatch arialCall, Call.doMatch timesCall]).fileid_to_filename_ i = some p) ↔
      i < (runCalls stdConstants FontConfigDirect.construct
        [Call.doMatch arialCall, Call.doMatch timesCall]).next_file_id_ :=
  ⟨by decide,
    (registry_consistent stdConstants [Call.doMatch arialCall, Call.doMatch timesCall]
      (by decide)).2.2.2⟩

/-- C17 as stated fails: after the `2 ^ 32` calls `freshMatch 0`, ...,
`freshMatch (2 ^ 32 - 1)` the counter is back at 0 and the id 0 stands for
`pathOf 0`; the next unpinned call discovers the new path
`pathOf (2 ^ 32)`, gives it the id 0, and the entry of id 0 in
`fileid_to_filename_` is changed to the new path. -/
theorem registry_entry_overwritten_after_wrap :
    (runCalls stdConstants FontConfigDirect.construct
      (freshCalls (2 ^ 32 - 1))).next_file_id_ = 2 ^ 32 - 1 ∧
    (runCalls stdConstants FontConfigDirect.construct
      (freshCalls (2 ^ 32))).next_file_id_ = 0 ∧
    (runCalls stdConstants FontConfigDirect.construct
      (freshCalls (2 ^ 32))).fileid_to_filename_ 0 = some (pathOf 0) ∧
    Discovers stdConstants (freshMatch (2 ^ 32))
      (runCalls stdConstants FontConfigDirect.construct (freshCalls (2 ^ 32)))
      (pathOf (2 ^ 32)) ∧
    (step stdConstants (runCalls stdConstants FontConfigDirect.construct (freshCalls (2 ^ 32)))
      (Call.doMatch (freshMatch (2 ^ 32)))).fileid_to_filename_ 0 = some (pathOf (2 ^ 32)) ∧
    pathOf 0 ≠ pathOf (2 ^ 32) := by
  obtain ⟨g1, _, _, _⟩ := freshCalls_run stdConstants (2 ^ 32 - 1) (by omega)
  obtain ⟨h1, h2, _, h4⟩ := freshCalls_run stdConstants (2 ^ 32) (Nat.le_refl _)
  rw [Nat.mod_self] at h1
  rw [Nat.mod_eq_of_lt (by omega)] at g1
  have hnew : (runCalls stdConstants FontConfigDirect.construct
      (freshCalls (2 ^ 32))).filename_to_fileid_ (pathOf (2 ^ 32)) = none := by
    cases hv : (runCalls stdConstants FontConfigDirect.construct
        (freshCalls (2 ^ 32))).filename_to_fileid_ (pathOf (2 ^ 32)) with
    | none => rfl
    | some i =>
      exfalso
      obtain ⟨hi, he⟩ := h2 _ _ hv
      have := pathOf_injective he
      omega
  have hd := freshMatch_discovers stdConstants _ (2 ^ 32) hnew
  refine ⟨g1, h1, h4 0 (by omega), hd, ?_, ?_⟩
  · rw [step_doMatch, (matchCall_discovers hd).1]
    simp only [Match_register, h1, if_true]
  · intro h
    have := pathOf_injective h
    omega

/-- C17, amended: for each of the first `2 ^ 32 - 1` calls of a sequence of
`Match` and `Open` calls on a fresh engine, every entry of the two maps
present before the call is present and unchanged after it; an unpinned
`Match` that discovers a path not yet registered gives it the current
counter value (which is 0 on a fresh engine), gives that value out, and
increments the counter by one; every other call leaves the engine as it
was. -/
theorem registry_growth (K : Constants) (calls : List Call) (x : Call)
    (hlen : calls.length + 1 < 2 ^ 32) :
    (∀ p i, (runCalls K FontConfigDirect.construct calls).filename_to_fileid_ p = some i →
      (step K (runCalls K FontConfigDirect.construct calls) x).filename_to_fileid_ p
        = some i) ∧
    (∀ i p, (runCalls K FontConfigDirect.construct calls).fileid_to_filename_ i = some p →
      (step K (runCalls K FontConfigDirect.construct calls) x).fileid_to_filename_ i
        = some p) ∧
    (∀ c filename, x = Call.doMatch c →
      Discovers K c (runCalls K FontConfigDirect.construct calls) filename →
      (c.run K (runCalls K FontConfigDirect.construct calls)).result_fileid =
        c.result_fileid.map
          (fun _ => (runCalls K FontConfigDirect.construct calls).next_file_id_) ∧
      (step K (runCalls K FontConfigDirect.construct calls) x).filename_to_fileid_ filename
        = some (runCalls K FontConfigDirect.construct calls).next_file_id_ ∧
      (step K (runCalls K FontConfigDirect.construct calls) x).fileid_to_filename_
        (runCalls K FontConfigDirect.construct calls).next_file_id_ = some filename ∧
      (step K (runCalls K FontConfigDirect.construct calls) x).next_file_id_ =
        (runCalls K FontConfigDirect.construct calls).next_file_id_ + 1) ∧
    ((¬ ∃ c filename, x = Call.doMatch c ∧
        Discovers K c (runCalls K FontConfigDirect.construct calls) filename) →
      step K (runCalls K FontConfigDirect.construct calls) x =
        runCalls K FontConfigDirect.construct calls) ∧
    FontConfigDirect.construct.next_file_id_ = 0 := by
  obtain ⟨⟨hc1, hc2⟩, hn⟩ := consistent_runCalls K calls (by omega)
  have hlt : (runCalls K FontConfigDirect.construct calls).next_file_id_ + 1 < 2 ^ 32 := by
    omega
  refine ⟨step_filename_to_fileid K _ x, ?_, ?_, ?_, rfl⟩
  · intro i p hi
    rcases step_cases K (runCalls K FontConfigDirect.construct calls) x with
      he | ⟨c, filename, _, _, he⟩
    · rw [he]
      exact hi
    · rw [he]
      have hne : i ≠ (runCalls K FontConfigDirect.construct calls).next_file_id_ := by
        have := (hc2 i).1 ⟨p, hi⟩
        omega
      simp only [Match_register, if_neg hne]
      exact hi
  · intro c filename hx hd
    obtain ⟨h1, h2, _⟩ := matchCall_discovers hd
    have hs : step K (runCalls K FontConfigDirect.construct calls) x =
        Match_register (runCalls K FontConfigDirect.construct calls) filename := by
      rw [hx]
      exact h1
    rw [hs]
    refine ⟨h2, ?_, ?_, ?_⟩
    · simp only [Match_register, if_true]
    · simp only [Match_register, if_true]
    · simp only [Match_register]
      exact Nat.mod_eq_of_lt hlt
  · intro hno
    rcases step_cases K (runCalls K FontConfigDirect.construct calls) x with
      he | ⟨c, filename, hx, hd, _⟩
    · exact he
    · exact absurd ⟨c, filename, hx, hd⟩ hno

/-- C17 amended, at a request for "Times" after a request for "Arial": the
new path gets the id 1 and the counter goes from 1 to 2. -/
theorem registry_growth_witness :
    (runCalls stdConstants FontConfigDirect.construct [Call.doMatch arialCall]).next_file_id_
      = 1 ∧
    (timesCall.run stdConstants
      (runCalls stdConstants FontConfigDirect.construct [Call.doMatch arialCall])).result_fileid
      = timesCall.result_fileid.map (fun _ =>
        (runCalls stdConstants FontConfigDirect.construct
          [Call.doMatch arialCall]).next_file_id_) ∧
    (step stdConstants
      (runCalls stdConstants FontConfigDirect.construct [Call.doMatch arialCall])
      (Call.doMatch timesCall)).next_file_id_ =
      (runCalls stdConstants FontConfigDirect.construct
        [Call.doMatch arialCall]).next_file_id_ + 1 :=
  ⟨by decide,
    ((registry_growth stdConstants [Call.doMatch arialCall] (Call.doMatch timesCall)
      (by decide)).2.2.1 timesCall "/t.ttf" rfl
      ⟨rfl, "Times", plainFont "/t.ttf" ["Times"], rfl, Or.inr (by decide), rfl,
        by decide⟩).1,
    ((registry_growth stdConstants [Call.doMatch arialCall] (Call.doMatch timesCall)
      (by decide)).2.2.1 timesCall "/t.ttf" rfl
      ⟨rfl, "Times", plainFont "/t.ttf" ["Times"], rfl, Or.inr (by decide), rfl,
        by decide⟩).2.2.2⟩

/-! ## Failure paths, the returned family, the equivalence relation -/

/-- Every failing `return` of `Match` other than the one taken when the
chosen font has no family name leaves the engine and the cells behind the
pointer arguments as they were. -/
theorem match_failure_frame (K : Constants) (cat : Catalog) (self : FontConfigDirect)
    (result_family : Option String) (result_fileid : Option Nat)
    (fileid_valid : Bool) (fileid : Nat) (family : String)
    (is_bold is_italic : Option Bool)
    (hfail : (FontConfigDirect.Match K cat self result_family result_fileid fileid_valid
      fileid family is_bold is_italic).ret ≠ MatchReturn.ok)
    (hfam : (FontConfigDirect.Match K cat self result_family result_fileid fileid_valid
      fileid family is_bold is_italic).ret ≠ MatchReturn.no_family) :
    FontConfigDirect.Match K cat self result_family result_fileid fileid_valid fileid
        family is_bold is_italic =
      ⟨(FontConfigDirect.Match K cat self result_family result_fileid fileid_valid fileid
          family is_bold is_italic).ret, self, result_family, result_fileid,
        is_bold, is_italic⟩ := by
  cases hsel : Match_select K cat self fileid_valid fileid family is_bold is_italic with
  | error r => rw [match_ret_of_error result_family result_fileid hsel]
  | ok v =>
    obtain ⟨pc, m⟩ := v
    obtain ⟨filename, _, he⟩ := match_of_select result_family result_fileid hsel
    rw [he] at hfail hfam ⊢
    cases hfb : IsFallbackFontAllowed family <;>
      cases hacc : Match_acceptable_substitute family pc m <;>
      cases hf : m.family[0]? <;> simp [hfb, hacc, hf] at hfail hfam ⊢

/-- C21 fails on the code at the request `namelessCall` on a fresh engine:
`Match` returns `false` (the chosen font has no family name), and yet the
counter has gone from 0 to 1, the path "/x.ttf" stands in both maps under
the id 0, and the cell behind `result_fileid`, which held 9, holds 0. -/
theorem failed_match_changes_registry :
    (namelessCall.run stdConstants FontConfigDirect.construct).ret = MatchReturn.no_family ∧
    (namelessCall.run stdConstants FontConfigDirect.construct).ret.toBool = false ∧
    FontConfigDirect.construct.next_file_id_ = 0 ∧
    (namelessCall.run stdConstants FontConfigDirect.construct).self.next_file_id_ = 1 ∧
    FontConfigDirect.construct.filename_to_fileid_ "/x.ttf" = none ∧
    (namelessCall.run stdConstants FontConfigDirect.construct).self.filename_to_fileid_
      "/x.ttf" = some 0 ∧
    FontConfigDirect.construct.fileid_to_filename_ 0 = none ∧
    (namelessCall.run stdConstants FontConfigDirect.construct).self.fileid_to_filename_ 0
      = some "/x.ttf" ∧
    namelessCall.result_fileid = some 9 ∧
    (namelessCall.run stdConstants FontConfigDirect.construct).result_fileid = some 0 := by
  decide

/-- C23: on a successful `Match` the family name written back is the family
name of the chosen font at alias index 0, whatever the requested family and
the post-configuration family are and whichever alias made the substitution
check accept; it is written exactly when the pointer is not null. -/
theorem returned_family_is_first_alias (K : Constants) (cat : Catalog)
    (self : FontConfigDirect) (result_family : Option String) (result_fileid : Option Nat)
    (fileid_valid : Bool) (fileid : Nat) (family : String)
    (is_bold is_italic : Option Bool) (pc : String) (m : FcPattern)
    (hsel : Match_select K cat self fileid_valid fileid family is_bold is_italic
      = Except.ok (pc, m))
    (hok : (FontConfigDirect.Match K cat self result_family result_fileid fileid_valid
      fileid family is_bold is_italic).ret = MatchReturn.ok) :
    ∃ first, m.family[0]? = some first ∧
      (FontConfigDirect.Match K cat self result_family result_fileid fileid_valid fileid
        family is_bold is_italic).result_family = result_family.map (fun _ => first) := by
  obtain ⟨filename, _, he⟩ := match_of_select result_family result_fileid hsel
  rw [he] at hok ⊢
  cases hfam : m.family[0]? with
  | none =>
    exfalso
    rw [hfam] at hok
    cases hfb : IsFallbackFontAllowed family <;>
      cases hacc : Match_acceptable_substitute family pc m <;> simp [hfb, hacc] at hok
  | some first =>
    refine ⟨first, rfl, ?_⟩
    cases hfb : IsFallbackFontAllowed family <;>
      cases hacc : Match_acceptable_substitute family pc m <;> simp [hfb, hacc, hfam] at hok ⊢

/-- C23, at the request "Bitstream Vera Sans" with "Arial" after
configuration and a font whose aliases are "DejaVu Sans" and "Bitstream Vera
Sans": the check accepts because of the second alias and the family given
back is the first. -/
theorem returned_family_is_first_alias_witness :
    Match_acceptable "Bitstream Vera Sans" "Arial" "DejaVu Sans" = false ∧
    ∃ first, (plainFont "/v.ttf" ["DejaVu Sans", "Bitstream Vera Sans"]).family[0]?
        = some first ∧
      (FontConfigDirect.Match stdConstants
        (oneFont "Arial" (plainFont "/v.ttf" ["DejaVu Sans", "Bitstream Vera Sans"]))
        FontConfigDirect.construct (some "") none false 0 "Bitstream Vera Sans"
        none none).result_family = (some "").map (fun _ => first) :=
  ⟨by decide,
    returned_family_is_first_alias stdConstants
      (oneFont "Arial" (plainFont "/v.ttf" ["DejaVu Sans", "Bitstream Vera Sans"]))
      FontConfigDirect.construct (some "") none false 0 "Bitstream Vera Sans" none none
      "Arial" (plainFont "/v.ttf" ["DejaVu Sans", "Bitstream Vera Sans"]) rfl (by decide)⟩

/-- C24: `IsMetricCompatibleReplacement` is transitive, and it relates a name
to itself exactly when the name equals a name of the table ignoring case;
no name occurs in the table under two class ids. -/
theorem isMetricCompatibleReplacement_trans (a b c : String) :
    (IsMetricCompatibleReplacement a b = true → IsMetricCompatibleReplacement b c = true →
      IsMetricCompatibleReplacement a c = true) ∧
    (IsMetricCompatibleReplacement a a = true ↔
      ∃ row ∈ kFontEquivClasses, EqIgnoreCase row.name a) ∧
    (∀ r1 ∈ kFontEquivClasses, ∀ r2 ∈ kFontEquivClasses,
      EqIgnoreCase r1.name r2.name → r1.id = r2.id) := by
  refine ⟨?_, ?_, table_functional⟩
  · intro hab hbc
    obtain ⟨ra, ham, rb, hbm, har, hbr, hid⟩ := (isMetricCompatibleReplacement_iff a b).1 hab
    obtain ⟨rb1, hbm1, rc, hcm, hbr1, hcr, hid1⟩ :=
      (isMetricCompatibleReplacement_iff b c).1 hbc
    have hbb : rb.id = rb1.id := table_functional rb hbm rb1 hbm1 (hbr.trans hbr1.symm)
    exact (isMetricCompatibleReplacement_iff a c).2
      ⟨ra, ham, rc, hcm, har, hcr, by rw [hid, hbb, hid1]⟩
  · rw [isMetricCompatibleReplacement_iff]
    constructor
    · rintro ⟨ra, ham, _, _, har, _, _⟩
      exact ⟨ra, ham, har⟩
    · rintro ⟨ra, ham, har⟩
      exact ⟨ra, ham, ra, ham, har, har, rfl⟩

/-- C24, at "ARIAL", "Liberation Sans" and "albany amt". -/
theorem isMetricCompatibleReplacement_trans_witness :
    IsMetricCompatibleReplacement "ARIAL" "albany amt" = true ∧
    IsMetricCompatibleReplacement "Monaco" "Monaco" = false :=
  ⟨(isMetricCompatibleReplacement_trans "ARIAL" "Liberation Sans" "albany amt").1
      (by decide) (by decide),
    by decide⟩

/-! ## Ids given out stay known -/

/-- An id known to `fileid_to_filename_` stays known after a call. -/
theorem step_fileid_present (K : Constants) (self : FontConfigDirect) (x : Call) (id : Nat)
    (h : self.fileid_to_filename_ id ≠ none) :
    (step K self x).fileid_to_filename_ id ≠ none := by
  rcases step_cases K self x with he | ⟨c, filename, _, _, he⟩
  · rw [he]
    exact h
  · rw [he]
    simp only [Match_register]
    by_cases hi : id = self.next_file_id_
    · rw [if_pos hi]
      exact fun h0 => by cases h0
    · rw [if_neg hi]
      exact h

theorem runCalls_fileid_present (K : Constants) (calls : List Call)
    (self : FontConfigDirect) (id : Nat) (h : self.fileid_to_filename_ id ≠ none) :
    (runCalls K self calls).fileid_to_filename_ id ≠ none := by
  induction calls generalizing self with
  | nil => exact h
  | cons x l ih =>
    rw [runCalls_cons]
    exact ih _ (step_fileid_present K self x id h)

/-- In every state reached from a fresh engine, an id that stands in
`filename_to_fileid_` is known to `fileid_to_filename_`. -/
theorem reachable_fileid_present (K : Constants) (calls : List Call) (p : String) (i : Nat)
    (h : (runCalls K FontConfigDirect.construct calls).filename_to_fileid_ p = some i) :
    (runCalls K FontConfigDirect.construct calls).fileid_to_filename_ i ≠ none := by
  induction calls using List.reverseRecOn generalizing p i with
  | nil => cases h
  | append_singleton l x ih =>
    rw [runCalls_snoc] at h ⊢
    rcases step_cases K (runCalls K FontConfigDirect.construct l) x with
      he | ⟨c, filename, _, _, he⟩
    · rw [he] at h ⊢
      exact ih p i h
    · rw [he] at h ⊢
      simp only [Match_register] at h ⊢
      by_cases hi : i = (runCalls K FontConfigDirect.construct l).next_file_id_
      · rw [if_pos hi]
        exact fun h0 => by cases h0
      · rw [if_neg hi]
        by_cases hp : p = filename
        · rw [if_pos hp] at h
          exact absurd (Option.some.inj h).symm hi
        · rw [if_neg hp] at h
          exact ih p i h

/-- Registering a new path on an engine whose maps are in step leaves the
two maps with the same pairs, also when the counter wraps. -/
theorem register_same_pairs {self : FontConfigDirect} {filename : String}
    (hc : Consistent self) (hnew : self.filename_to_fileid_ filename = none) (p : String)
    (i : Nat) :
    (Match_register self filename).filename_to_fileid_ p = some i ↔
      (Match_register self filename).fileid_to_filename_ i = some p := by
  obtain ⟨h1, h2⟩ := hc
  simp only [Match_register]
  by_cases hp : p = filename
  · subst hp
    rw [if_pos rfl]
    by_cases hi : i = self.next_file_id_
    · subst hi
      rw [if_pos rfl]
      exact ⟨fun _ => rfl, fun _ => rfl⟩
    · rw [if_neg hi]
      constructor
      · intro h
        exact absurd (Option.some.inj h).symm hi
      · intro h
        rw [(h1 p i).2 h] at hnew
        cases hnew
  · rw [if_neg hp]
    by_cases hi : i = self.next_file_id_
    · subst hi
      rw [if_pos rfl]
      constructor
      · intro h
        have := (h2 self.next_file_id_).1 ⟨p, (h1 p _).1 h⟩
        omega
      · intro h
        exact absurd (Option.some.inj h).symm hp
    · rw [if_neg hi]
      exact h1 p i

/-- After at most `2 ^ 32` calls on a fresh engine the two maps hold the same pairs. -/
theorem same_pairs_runCalls (K : Constants) (calls : List Call)
    (hlen : calls.length ≤ 2 ^ 32) (p : String) (i : Nat) :
    (runCalls K FontConfigDirect.construct calls).filename_to_fileid_ p = some i ↔
      (runCalls K FontConfigDirect.construct calls).fileid_to_filename_ i = some p := by
  cases calls using List.reverseRecOn with
  | nil => exact consistent_construct.1 p i
  | append_singleton l x =>
    rw [List.length_append, List.length_singleton] at hlen
    obtain ⟨hc, _⟩ := consistent_runCalls K l (by omega)
    rw [runCalls_snoc]
    rcases step_cases K (runCalls K FontConfigDirect.construct l) x with
      he | ⟨c, filename, _, hd, he⟩
    · rw [he]
      exact hc.1 p i
    · rw [he]
      exact register_same_pairs hc hd.2.choose_spec.choose_spec.2.2.2 p i

/-- The engine after the `2 ^ 32 + 1` fresh calls: `pathOf 0` still has the
id 0 in `filename_to_fileid_`, and in `fileid_to_filename_` the id 0 now
stands for `pathOf (2 ^ 32)`. -/
theorem freshCalls_wrapped (K : Constants) :
    (runCalls K FontConfigDirect.construct (freshCalls (2 ^ 32 + 1))).filename_to_fileid_
      (pathOf 0) = some 0 ∧
    (runCalls K FontConfigDirect.construct (freshCalls (2 ^ 32 + 1))).fileid_to_filename_ 0
      = some (pathOf (2 ^ 32)) := by
  obtain ⟨h1, h2, h3, _⟩ := freshCalls_run K (2 ^ 32) (Nat.le_refl _)
  rw [Nat.mod_self] at h1
  have hnew : (runCalls K FontConfigDirect.construct
      (freshCalls (2 ^ 32))).filename_to_fileid_ (pathOf (2 ^ 32)) = none := by
    cases hv : (runCalls K FontConfigDirect.construct
        (freshCalls (2 ^ 32))).filename_to_fileid_ (pathOf (2 ^ 32)) with
    | none => rfl
    | some i =>
      exfalso
      obtain ⟨hi, he⟩ := h2 _ _ hv
      have := pathOf_injective he
      omega
  have hne : pathOf 0 ≠ pathOf (2 ^ 32) := by
    intro h
    have := pathOf_injective h
    omega
  rw [freshCalls_succ, runCalls_snoc, step_doMatch,
    (matchCall_discovers (freshMatch_discovers K _ (2 ^ 32) hnew)).1]
  simp only [Match_register, h1, if_true, if_neg hne]
  exact ⟨h3 0 (by omega), trivial⟩

theorem match_select_pinned {K : Constants} {cat : Catalog} {self : FontConfigDirect}
    {fileid : Nat} {family : String} {is_bold is_italic : Option Bool}
    {pc : String} {m : FcPattern}
    (h : Match_select K cat self true fileid family is_bold is_italic = Except.ok (pc, m)) :
    self.fileid_to_filename_ fileid ≠ none := by
  obtain ⟨_, pattern, _, hp, _⟩ := match_select_font_set h
  intro hnone
  unfold Match_pattern at hp
  simp only [if_true, hnone] at hp
  cases hp

/-- C22 as stated fails: after the `2 ^ 32 + 1` calls `freshMatch 0`, ...,
`freshMatch (2 ^ 32)` the successful unpinned call `freshMatch 0` chooses the
font at `pathOf 0` again and returns its id 0, but the path registered under
the id 0 is `pathOf (2 ^ 32)`. -/
theorem returned_fileid_names_other_path :
    (freshMatch 0).select stdConstants
      (runCalls stdConstants FontConfigDirect.construct (freshCalls (2 ^ 32 + 1)))
      = Except.ok ("", plainFont (pathOf 0) ["Sans"]) ∧
    ((freshMatch 0).run stdConstants
      (runCalls stdConstants FontConfigDirect.construct (freshCalls (2 ^ 32 + 1)))).ret
      = MatchReturn.ok ∧
    ((freshMatch 0).run stdConstants
      (runCalls stdConstants FontConfigDirect.construct
        (freshCalls (2 ^ 32 + 1)))).result_fileid = some 0 ∧
    ((freshMatch 0).run stdConstants
      (runCalls stdConstants FontConfigDirect.construct
        (freshCalls (2 ^ 32 + 1)))).self.fileid_to_filename_ 0 = some (pathOf (2 ^ 32)) ∧
    pathOf (2 ^ 32) ≠ pathOf 0 := by
  obtain ⟨hf, hi⟩ := freshCalls_wrapped stdConstants
  have hacc : IsFallbackFontAllowed (freshMatch 0).family = true ∨
      Match_acceptable_substitute (freshMatch 0).family ""
        (plainFont (pathOf 0) ["Sans"]) = true :=
    Or.inr ((acceptable_substitute_iff _ _ _).2
      ⟨0, by omega, "Sans", rfl, match_acceptable_empty _ _⟩)
  obtain ⟨h1, h2, _⟩ := (matchCall_of_select
    (freshMatch_select stdConstants
      (runCalls stdConstants FontConfigDirect.construct (freshCalls (2 ^ 32 + 1))) 0)
    (rfl : (plainFont (pathOf 0) ["Sans"]).file = some (pathOf 0))).2 hacc
  have hfound := match_fileid_found (freshMatch 0).fileid hf
  have hv : (freshMatch 0).fileid_valid = false := rfl
  rw [hv, hfound] at h1 h2
  simp only [] at h1 h2
  refine ⟨freshMatch_select _ _ _, freshMatch_ok _ _ _, ?_, ?_, ?_⟩
  · rw [h2]
    rfl
  · rw [h1, hi]
  · intro h
    have := pathOf_injective h
    omega

/-- C22, amended: in every sequence of `Match` and `Open` calls on a fresh
engine, the file id returned by a successful `Match`, pinned or not, is in
`fileid_to_filename_` after the call and after every later call, so that
`Open` on it opens the registered file; and for an unpinned successful
`Match` that is among the first `2 ^ 32 + 1` calls of the sequence, the path
registered under the returned id after the call is the path of the chosen
font. -/
theorem returned_fileid_registered (K : Constants) (calls1 calls2 : List Call)
    (c : MatchCall) (id : Nat)
    (hok : (c.run K (runCalls K FontConfigDirect.construct calls1)).ret = MatchReturn.ok)
    (hid : (c.run K (runCalls K FontConfigDirect.construct calls1)).result_fileid
      = some id) :
    (∃ filename,
      (runCalls K FontConfigDirect.construct
        (calls1 ++ Call.doMatch c :: calls2)).fileid_to_filename_ id = some filename ∧
      ∀ cat : Catalog,
        FontConfigDirect.Open cat
          (runCalls K FontConfigDirect.construct (calls1 ++ Call.doMatch c :: calls2)) id =
          cat.sys_open (c_str filename)) ∧
    (c.fileid_valid = false → calls1.length ≤ 2 ^ 32 →
      ∀ pc m filename,
        c.select K (runCalls K FontConfigDirect.construct calls1) = Except.ok (pc, m) →
        m.file = some filename →
        (c.run K (runCalls K FontConfigDirect.construct calls1)).self.fileid_to_filename_ id
          = some filename) := by
  constructor
  · have hok1 : (FontConfigDirect.Match K c.cat (runCalls K FontConfigDirect.construct calls1)
        c.result_family c.result_fileid c.fileid_valid c.fileid c.family c.is_bold
        c.is_italic).ret = MatchReturn.ok := hok
    obtain ⟨pc, m, filename, hsel, _, hfile, _, _⟩ :=
      match_reaches_fileid c.result_family c.result_fileid (Or.inl hok1)
    obtain ⟨hself, hid1⟩ := matchCall_ok_fileid
      (show c.select K (runCalls K FontConfigDirect.construct calls1) = Except.ok (pc, m)
        from hsel) hfile hok hid
    have hpresent : (c.run K (runCalls K FontConfigDirect.construct
        calls1)).self.fileid_to_filename_ id ≠ none := by
      rw [hself, hid1]
      cases hv : c.fileid_valid with
      | true =>
        rw [match_fileid_pinned]
        rw [hv] at hsel
        exact match_select_pinned hsel
      | false =>
        cases hf : (runCalls K FontConfigDirect.construct calls1).filename_to_fileid_
            filename with
        | none =>
          rw [match_fileid_new c.fileid hf]
          simp [Match_register]
        | some i =>
          rw [match_fileid_found c.fileid hf]
          exact reachable_fileid_present K calls1 filename i hf
    have hrun : runCalls K FontConfigDirect.construct (calls1 ++ Call.doMatch c :: calls2) =
        runCalls K (c.run K (runCalls K FontConfigDirect.construct calls1)).self calls2 := by
      rw [runCalls_append]
      rfl
    have hlater := runCalls_fileid_present K calls2 _ id hpresent
    rw [← hrun] at hlater
    obtain ⟨filename1, hf1⟩ := Option.ne_none_iff_exists'.1 hlater
    refine ⟨filename1, hf1, ?_⟩
    intro cat
    unfold FontConfigDirect.Open
    rw [hf1]
  · intro hu hlen pc m filename hsel hfile
    obtain ⟨hself, hid1⟩ := matchCall_ok_fileid hsel hfile hok hid
    rw [hself, hid1, hu]
    cases hf : (runCalls K FontConfigDirect.construct calls1).filename_to_fileid_
        filename with
    | none =>
      rw [match_fileid_new c.fileid hf]
      simp [Match_register]
    | some i =>
      rw [match_fileid_found c.fileid hf]
      exact (same_pairs_runCalls K calls1 hlen filename i).1 hf

/-- C22 amended, at a request for "Times" after a request for "Arial",
followed by an `Open`: the id 1 given to "/t.ttf" is still registered. -/
theorem returned_fileid_registered_witness :
    ∃ filename,
      (runCalls stdConstants FontConfigDirect.construct
        ([Call.doMatch arialCall] ++ Call.doMatch timesCall ::
          [Call.doOpen timesCall.cat 1])).fileid_to_filename_ 1 = some filename ∧
      ∀ cat : Catalog,
        FontConfigDirect.Open cat
          (runCalls stdConstants FontConfigDirect.construct
            ([Call.doMatch arialCall] ++ Call.doMatch timesCall ::
              [Call.doOpen timesCall.cat 1])) 1 = cat.sys_open (c_str filename) :=
  (returned_fileid_registered stdConstants [Call.doMatch arialCall]
    [Call.doOpen timesCall.cat 1] timesCall 1 (by decide) (by decide)).1

end FontConfig
